import Mathlib

set_option linter.unusedSectionVars false
set_option linter.unusedVariables false

/-!
Verification of the cluster-vision dependency synthesizer and registry
freshness subsystem.  The Go sources are embedded shallowly: maps become
association lists, the stack-based DFS of `transitiveReduce` becomes a
well-founded recursive function, and registry/network effects become
explicit oracle parameters.
-/

namespace ClusterVision

variable {V : Type} [DecidableEq V]

/-- A dependency graph: association list from a node to its direct
dependencies.  Embeds Go's `map[string]map[string]bool` (an entry being
present with value `true` means the edge exists). -/
abbrev Graph (V : Type) := List (V × List V)

/-- Adjacency lookup, mirroring Go's `graph[cur]` (missing key yields the
empty set). -/
def adj : Graph V → V → List V
  | [], _ => []
  | (k, ds) :: rest, v => if v = k then ds else adj rest v

/-- The key set of the graph map. -/
def keys (g : Graph V) : List V := g.map Prod.fst

/-- Every vertex mentioned by the graph: keys plus all adjacency targets. -/
def allVerts (g : Graph V) : List V := keys g ++ (g.map Prod.snd).flatten

lemma mem_keys {g : Graph V} {v : V} : v ∈ keys g ↔ ∃ ds, (v, ds) ∈ g := by
  constructor
  · intro h
    rcases List.mem_map.mp h with ⟨⟨a, b⟩, hab, hfst⟩
    exact ⟨b, by simpa [← hfst] using hab⟩
  · rintro ⟨ds, h⟩
    exact List.mem_map.mpr ⟨(v, ds), h, rfl⟩

lemma mem_allVerts {g : Graph V} {w : V} :
    w ∈ allVerts g ↔ w ∈ keys g ∨ ∃ p ∈ g, w ∈ p.2 := by
  simp only [allVerts, List.mem_append, List.mem_flatten, List.mem_map]
  constructor
  · rintro (h | ⟨l, ⟨p, hp, rfl⟩, hw⟩)
    · exact Or.inl h
    · exact Or.inr ⟨p, hp, hw⟩
  · rintro (h | ⟨p, hp, hw⟩)
    · exact Or.inl h
    · exact Or.inr ⟨p.2, ⟨p, hp, rfl⟩, hw⟩

lemma adj_subset_allVerts (g : Graph V) (v w : V) (h : w ∈ adj g v) :
    w ∈ allVerts g := by
  induction g with
  | nil => simp [adj] at h
  | cons e rest ih =>
    obtain ⟨k, ds⟩ := e
    simp only [adj] at h
    by_cases hv : v = k
    · rw [if_pos hv] at h
      exact mem_allVerts.mpr (Or.inr ⟨(k, ds), List.mem_cons_self _ _, h⟩)
    · rw [if_neg hv] at h
      rcases mem_allVerts.mp (ih h) with hk | ⟨p, hp, hw⟩
      · rcases mem_keys.mp hk with ⟨ds', hds'⟩
        exact mem_allVerts.mpr (Or.inl (mem_keys.mpr ⟨ds', List.mem_cons_of_mem _ hds'⟩))
      · exact mem_allVerts.mpr (Or.inr ⟨p, List.mem_cons_of_mem _ hp, hw⟩)

lemma adj_eq_nil_of_not_key (g : Graph V) (v : V) (h : v ∉ keys g) :
    adj g v = [] := by
  induction g with
  | nil => rfl
  | cons e rest ih =>
    obtain ⟨k, ds⟩ := e
    have hvk : v ≠ k := by
      intro hvk
      exact h (mem_keys.mpr ⟨ds, by simp [hvk]⟩)
    have hrest : v ∉ keys rest := by
      intro hr
      rcases mem_keys.mp hr with ⟨ds', hds'⟩
      exact h (mem_keys.mpr ⟨ds', List.mem_cons_of_mem _ hds'⟩)
    simp [adj, hvk, ih hrest]

/-- Vertices of the graph not yet visited, as a finset (termination
measure for the DFS). -/
def unvisited (g : Graph V) (visited : List V) : Finset V :=
  (allVerts g).toFinset \ visited.toFinset

lemma unvisited_cons_lt (g : Graph V) (visited : List V) (cur : V)
    (hg : cur ∈ allVerts g) (hv : cur ∉ visited) :
    (unvisited g (cur :: visited)).card < (unvisited g visited).card := by
  have hmem : cur ∈ unvisited g visited := by
    simp [unvisited, List.mem_toFinset, hg, hv]
  have hsub : unvisited g (cur :: visited) = (unvisited g visited).erase cur := by
    ext x
    simp only [unvisited, Finset.mem_sdiff, List.mem_toFinset, List.mem_cons,
      Finset.mem_erase]
    constructor
    · rintro ⟨hx, hn⟩
      exact ⟨fun hc => hn (Or.inl hc), hx, fun hc => hn (Or.inr hc)⟩
    · rintro ⟨hne, hx, hn⟩
      exact ⟨hx, fun hc => hc.elim hne hn⟩
  rw [hsub]
  exact Finset.card_erase_lt_of_mem hmem

lemma unvisited_cons_eq (g : Graph V) (visited : List V) (cur : V)
    (hg : cur ∉ allVerts g) :
    unvisited g (cur :: visited) = unvisited g visited := by
  ext x
  simp only [unvisited, Finset.mem_sdiff, List.mem_toFinset, List.mem_cons]
  constructor
  · rintro ⟨hx, hn⟩
    exact ⟨hx, fun h => hn (Or.inr h)⟩
  · rintro ⟨hx, hn⟩
    refine ⟨hx, fun h => ?_⟩
    rcases h with h | h
    · subst h; exact hg hx
    · exact hn h

/-- The DFS loop inside `transitiveReduce` (dependencies.go): pop `cur`
from the stack; report success if it equals the target `dep`; otherwise,
if unvisited, mark it and push its successors.  Visited marking bounds the
recursion, so the function terminates on every finite graph, cyclic ones
included. -/
def dfsFound (g : Graph V) (dep : V) (visited : List V) (stack : List V) : Bool :=
  match stack with
  | [] => false
  | cur :: rest =>
    if cur = dep then true
    else if cur ∈ visited then dfsFound g dep visited rest
    else dfsFound g dep (cur :: visited) (adj g cur ++ rest)
termination_by ((unvisited g visited).card, stack.length)
decreasing_by
  · apply Prod.Lex.right
    simp
  · by_cases hg : cur ∈ allVerts g
    · exact Prod.Lex.left _ _ (unvisited_cons_lt g visited cur hg (by assumption))
    · rw [unvisited_cons_eq g visited cur hg]
      apply Prod.Lex.right
      have : adj g cur = [] := by
        apply adj_eq_nil_of_not_key
        intro hk
        exact hg (by simp [allVerts, hk])
      simp [this]

/-- Predicate deciding whether the edge towards `dep` survives: the Go code
deletes `reduced[node][dep]` when the DFS, seeded with the other direct
dependencies of `node`, reaches `dep` in the original graph. -/
def keepEdge (g : Graph V) (ds : List V) (dep : V) : Bool :=
  ! dfsFound g dep [] (ds.filter (fun o => o ≠ dep))

/-- `transitiveReduce` from dependencies.go: copy the graph, then delete
every edge `(node, dep)` for which the DFS finds an alternative path. -/
def transitiveReduce (g : Graph V) : Graph V :=
  g.map (fun e => (e.1, e.2.filter (keepEdge g e.2)))

/-- Walks in a graph: `Walk g a b l` means `l` is the list of vertices
visited after `a`, each step following an edge, ending at `b`. -/
inductive Walk (g : Graph V) : V → V → List V → Prop
  | nil (a : V) : Walk g a a []
  | cons {a b c : V} {l : List V} :
      b ∈ adj g a → Walk g b c l → Walk g a c (b :: l)

/-- A graph is acyclic when it admits no nonempty closed walk. -/
def Acyclic (g : Graph V) : Prop :=
  ∀ (a : V) (l : List V), Walk g a a l → l = []

/-- Reachability: some walk exists. -/
def Reach (g : Graph V) (a b : V) : Prop := ∃ l, Walk g a b l

lemma walk_append {g : Graph V} {a b c : V} {l₁ l₂ : List V}
    (w₁ : Walk g a b l₁) (w₂ : Walk g b c l₂) : Walk g a c (l₁ ++ l₂) := by
  induction w₁ with
  | nil a => exact w₂
  | cons hadj _ ih => exact Walk.cons hadj (ih w₂)

lemma dfsFound_sound {g : Graph V} {dep : V} :
    ∀ (visited stack : List V), dfsFound g dep visited stack = true →
      ∃ x ∈ stack, Reach g x dep := by
  intro visited stack
  induction visited, stack using dfsFound.induct g dep with
  | case1 visited =>
    intro h
    simp [dfsFound] at h
  | case2 visited rest =>
    intro _
    exact ⟨dep, List.mem_cons_self _ _, ⟨[], Walk.nil dep⟩⟩
  | case3 visited cur rest hd hv ih =>
    intro h
    rw [dfsFound, if_neg hd, if_pos hv] at h
    obtain ⟨x, hx, hr⟩ := ih h
    exact ⟨x, List.mem_cons_of_mem _ hx, hr⟩
  | case4 visited cur rest hd hv ih =>
    intro h
    rw [dfsFound, if_neg hd, if_neg hv] at h
    obtain ⟨x, hx, l, wl⟩ := ih h
    rcases List.mem_append.mp hx with hx' | hx'
    · exact ⟨cur, List.mem_cons_self _ _, x :: l, Walk.cons hx' wl⟩
    · exact ⟨x, List.mem_cons_of_mem _ hx', l, wl⟩

lemma walk_end_mem_closed {g : Graph V} {S : List V}
    (hS : ∀ v ∈ S, ∀ w ∈ adj g v, w ∈ S) {x y : V} {l : List V}
    (w : Walk g x y l) (hx : x ∈ S) : y ∈ S := by
  induction w with
  | nil a => exact hx
  | cons hadj _ ih => exact ih (hS _ hx _ hadj)

lemma dfsFound_complete_aux {g : Graph V} {dep : V} :
    ∀ (visited stack : List V), dfsFound g dep visited stack = false →
      (∀ v ∈ visited, ∀ w ∈ adj g v, w ∈ visited ∨ w ∈ stack) →
      dep ∉ visited →
      ∀ x, (x ∈ stack ∨ x ∈ visited) → ∀ l, ¬ Walk g x dep l := by
  intro visited stack
  induction visited, stack using dfsFound.induct g dep with
  | case1 visited =>
    intro _ hinv hdep x hx l w
    have hcl : ∀ v ∈ visited, ∀ u ∈ adj g v, u ∈ visited := by
      intro v hv u hu
      rcases hinv v hv u hu with h | h
      · exact h
      · simp at h
    rcases hx with hx | hx
    · simp at hx
    · exact hdep (walk_end_mem_closed hcl w hx)
  | case2 visited rest =>
    intro hres
    simp [dfsFound] at hres
  | case3 visited cur rest hd hv ih =>
    intro hres hinv hdep x hx l w
    rw [dfsFound, if_neg hd, if_pos hv] at hres
    have hinv' : ∀ v ∈ visited, ∀ u ∈ adj g v, u ∈ visited ∨ u ∈ rest := by
      intro v hvv u hu
      rcases hinv v hvv u hu with h | h
      · exact Or.inl h
      · rcases List.mem_cons.mp h with h' | h'
        · exact Or.inl (h' ▸ hv)
        · exact Or.inr h'
    have hx' : x ∈ rest ∨ x ∈ visited := by
      rcases hx with h | h
      · rcases List.mem_cons.mp h with h' | h'
        · exact Or.inr (h' ▸ hv)
        · exact Or.inl h'
      · exact Or.inr h
    exact ih hres hinv' hdep x hx' l w
  | case4 visited cur rest hd hv ih =>
    intro hres hinv hdep x hx l w
    rw [dfsFound, if_neg hd, if_neg hv] at hres
    have hinv' : ∀ v ∈ cur :: visited, ∀ u ∈ adj g v, u ∈ cur :: visited ∨
        u ∈ adj g cur ++ rest := by
      intro v hvv u hu
      rcases List.mem_cons.mp hvv with h' | h'
      · subst h'
        exact Or.inr (List.mem_append_left _ hu)
      · rcases hinv v h' u hu with h | h
        · exact Or.inl (List.mem_cons_of_mem _ h)
        · rcases List.mem_cons.mp h with h'' | h''
          · exact Or.inl (h'' ▸ List.mem_cons_self _ _)
          · exact Or.inr (List.mem_append_right _ h'')
    have hdep' : dep ∉ cur :: visited := by
      intro h
      rcases List.mem_cons.mp h with h' | h'
      · exact hd h'.symm
      · exact hdep h'
    have hx' : x ∈ adj g cur ++ rest ∨ x ∈ cur :: visited := by
      rcases hx with h | h
      · rcases List.mem_cons.mp h with h' | h'
        · exact Or.inr (h' ▸ List.mem_cons_self _ _)
        · exact Or.inl (List.mem_append_right _ h')
      · exact Or.inr (List.mem_cons_of_mem _ h)
    exact ih hres hinv' hdep' x hx' l w

/-- The DFS seeded with `init` answers `true` exactly when some seed vertex
reaches `dep` in `g`. -/
lemma dfsFound_iff {g : Graph V} {dep : V} (init : List V) :
    dfsFound g dep [] init = true ↔ ∃ x ∈ init, Reach g x dep := by
  constructor
  · exact dfsFound_sound [] init
  · intro ⟨x, hx, l, w⟩
    by_contra h
    have hres : dfsFound g dep [] init = false := by
      cases hr : dfsFound g dep [] init
      · rfl
      · exact absurd hr h
    exact dfsFound_complete_aux [] init hres (by simp) (by simp) x (Or.inl hx) l w

lemma adj_map_filter (g : Graph V) (h : Graph V) (v : V) :
    adj (h.map (fun e => (e.1, e.2.filter (keepEdge g e.2)))) v
      = (adj h v).filter (keepEdge g (adj h v)) := by
  induction h with
  | nil => rfl
  | cons e rest ih =>
    obtain ⟨k, ds⟩ := e
    by_cases hv : v = k
    · simp [adj, hv]
    · simpa [adj, hv] using ih

lemma adj_transitiveReduce (g : Graph V) (v : V) :
    adj (transitiveReduce g) v = (adj g v).filter (keepEdge g (adj g v)) :=
  adj_map_filter g g v

lemma mem_adj_reduce_iff {g : Graph V} {a b : V} :
    b ∈ adj (transitiveReduce g) a ↔
      b ∈ adj g a ∧ keepEdge g (adj g a) b = true := by
  rw [adj_transitiveReduce]
  exact List.mem_filter

/-- An edge is deleted exactly when another direct dependency of the source
reaches the target in the original graph. -/
lemma keepEdge_false_iff {g : Graph V} {ds : List V} {dep : V} :
    keepEdge g ds dep = false ↔ ∃ x ∈ ds, x ≠ dep ∧ Reach g x dep := by
  unfold keepEdge
  rw [Bool.not_eq_false']
  rw [dfsFound_iff]
  constructor
  · rintro ⟨x, hx, hr⟩
    rw [List.mem_filter] at hx
    exact ⟨x, hx.1, by simpa using hx.2, hr⟩
  · rintro ⟨x, hx, hne, hr⟩
    exact ⟨x, List.mem_filter.mpr ⟨hx, by simpa using hne⟩, hr⟩

lemma walk_split {g : Graph V} {a c v : V} {l : List V}
    (w : Walk g a c l) (hv : v ∈ l) :
    ∃ l₁ l₂, l = l₁ ++ v :: l₂ ∧ Walk g a v (l₁ ++ [v]) ∧ Walk g v c l₂ := by
  induction w with
  | nil a => simp at hv
  | @cons a b c l hadj w ih =>
    rcases List.mem_cons.mp hv with h | h
    · subst h
      exact ⟨[], l, rfl, Walk.cons hadj (Walk.nil _), w⟩
    · obtain ⟨l₁, l₂, rfl, w1, w2⟩ := ih h
      exact ⟨b :: l₁, l₂, rfl, Walk.cons hadj w1, w2⟩

lemma acyclic_walk_nodup {g : Graph V} (hac : Acyclic g) {a b : V} {l : List V}
    (w : Walk g a b l) : (a :: l).Nodup := by
  induction w with
  | nil a => simp
  | @cons a b c l hadj w ih =>
    refine List.nodup_cons.mpr ⟨?_, ih⟩
    intro ha
    rcases List.mem_cons.mp ha with h | h
    · subst h
      have := hac a [a] (Walk.cons hadj (Walk.nil a))
      simp at this
    · obtain ⟨l₁, l₂, rfl, w1, _⟩ := walk_split w h
      have := hac a (b :: (l₁ ++ [a])) (Walk.cons hadj w1)
      simp at this

lemma walk_subset_allVerts {g : Graph V} {a b : V} {l : List V}
    (w : Walk g a b l) : ∀ v ∈ l, v ∈ allVerts g := by
  induction w with
  | nil a => simp
  | @cons a b c l hadj w ih =>
    intro v hv
    rcases List.mem_cons.mp hv with h | h
    · exact h ▸ adj_subset_allVerts g a b hadj
    · exact ih v h

lemma acyclic_walk_length_le {g : Graph V} (hac : Acyclic g) {a b : V}
    {l : List V} (w : Walk g a b l) :
    l.length ≤ (allVerts g).toFinset.card := by
  have hnd : l.Nodup := (List.nodup_cons.mp (acyclic_walk_nodup hac w)).2
  have hsub : l.toFinset ⊆ (allVerts g).toFinset := by
    intro v hv
    rw [List.mem_toFinset] at hv ⊢
    exact walk_subset_allVerts w v hv
  calc l.length = l.toFinset.card := (List.toFinset_card_of_nodup hnd).symm
  _ ≤ _ := Finset.card_le_card hsub

lemma exists_greatest_of_bounded (P : Nat → Prop) :
    ∀ (N : Nat), (∀ n, P n → n ≤ N) → (∃ n, P n) →
      ∃ m, P m ∧ ∀ n, P n → n ≤ m := by
  intro N
  induction N with
  | zero =>
    rintro hb ⟨n, hn⟩
    have h0 : n = 0 := Nat.le_zero.mp (hb n hn)
    exact ⟨0, h0 ▸ hn, fun k hk => hb k hk⟩
  | succ N ih =>
    intro hb hne
    by_cases hPN : P (N + 1)
    · exact ⟨N + 1, hPN, hb⟩
    · refine ih (fun n hn => ?_) hne
      have hle := hb n hn
      by_cases hn1 : n = N + 1
      · exact absurd (hn1 ▸ hn) hPN
      · omega

lemma exists_max_walk {g : Graph V} (hac : Acyclic g) {a b : V}
    (h : ∃ l, Walk g a b l) :
    ∃ l, Walk g a b l ∧ ∀ l', Walk g a b l' → l'.length ≤ l.length := by
  obtain ⟨m, ⟨l, wl, hlen⟩, hmax⟩ :=
    exists_greatest_of_bounded (fun n => ∃ l, Walk g a b l ∧ l.length = n)
      ((allVerts g).toFinset.card)
      (by
        rintro n ⟨l, wl, rfl⟩
        exact acyclic_walk_length_le hac wl)
      (by
        obtain ⟨l, wl⟩ := h
        exact ⟨l.length, l, wl, rfl⟩)
  exact ⟨l, wl, fun l' w' => hlen ▸ hmax _ ⟨l', w', rfl⟩⟩

/-- Every edge of the reduced graph is an edge of the input graph. -/
lemma reduce_edge_subset {g : Graph V} {a b : V}
    (h : b ∈ adj (transitiveReduce g) a) : b ∈ adj g a :=
  (mem_adj_reduce_iff.mp h).1

/-- Walks in the reduced graph are walks in the input graph. -/
lemma reduce_walk_subset {g : Graph V} {a b : V} {l : List V}
    (w : Walk (transitiveReduce g) a b l) : Walk g a b l := by
  induction w with
  | nil a => exact Walk.nil a
  | cons hadj _ ih => exact Walk.cons (reduce_edge_subset hadj) ih

/-- A maximum-length walk of an acyclic graph survives the reduction: none
of its edges admits an alternative path. -/
lemma max_walk_in_reduce {g : Graph V} {a b : V}
    {l : List V} (w : Walk g a b l) :
    (∀ l', Walk g a b l' → l'.length ≤ l.length) →
      Walk (transitiveReduce g) a b l := by
  induction w with
  | nil a => exact fun _ => Walk.nil a
  | @cons a x c l hadj w ih =>
    intro hmax
    refine Walk.cons ?_ (ih ?_)
    · rw [mem_adj_reduce_iff]
      refine ⟨hadj, ?_⟩
      by_contra hk
      have hk' : keepEdge g (adj g a) x = false := Bool.not_eq_true _ ▸ hk
      obtain ⟨y, hy, hyx, m, wm⟩ := keepEdge_false_iff.mp hk'
      have wy : Walk g a c (y :: (m ++ l)) := Walk.cons hy (walk_append wm w)
      have hle := hmax _ wy
      have hm : m ≠ [] := by
        intro hm0
        subst hm0
        cases wm
        exact hyx rfl
      have : m.length = 0 := by
        simp only [List.length_cons, List.length_append] at hle
        omega
      exact hm (List.length_eq_zero.mp this)
    · intro l'' w''
      have := hmax _ (Walk.cons hadj w'')
      simpa using this

lemma edge_rank_lt {g : Graph V} (rank : V → Nat)
    (h : ∀ p ∈ g, ∀ b ∈ p.2, rank b < rank p.1) {a b : V}
    (hab : b ∈ adj g a) : rank b < rank a := by
  induction g with
  | nil => simp [adj] at hab
  | cons e rest ih =>
    obtain ⟨k, ds⟩ := e
    simp only [adj] at hab
    by_cases hv : a = k
    · rw [if_pos hv] at hab
      have := h (k, ds) (List.mem_cons_self _ _) b hab
      simpa [hv] using this
    · rw [if_neg hv] at hab
      exact ih (fun p hp => h p (List.mem_cons_of_mem _ hp)) hab

/-- A rank function decreasing along every listed edge certifies
acyclicity; used to discharge `Acyclic` on concrete graphs. -/
lemma acyclic_of_rank {g : Graph V} (rank : V → Nat)
    (h : ∀ p ∈ g, ∀ b ∈ p.2, rank b < rank p.1) : Acyclic g := by
  have hwalk : ∀ {a b : V} {l : List V}, Walk g a b l → l ≠ [] →
      rank b < rank a := by
    intro a b l w
    induction w with
    | nil a => intro h0; exact absurd rfl h0
    | @cons a x c l hadj w ih =>
      intro _
      rcases List.eq_nil_or_concat l with h0 | _
      · subst h0
        cases w
        exact edge_rank_lt rank h hadj
      · have hlt := ih (by
          rintro rfl
          rename_i hconc
          obtain ⟨l', x', hx'⟩ := hconc
          simp at hx')
        exact hlt.trans (edge_rank_lt rank h hadj)
  intro a l w
  by_contra hne
  exact absurd (hwalk w hne) (lt_irrefl _)

lemma walk_of_adj_nil {g : Graph V} {a b : V} {l : List V}
    (h : adj g a = []) (w : Walk g a b l) : a = b ∧ l = [] := by
  cases w with
  | nil => exact ⟨rfl, rfl⟩
  | cons hadj _ =>
    rw [h] at hadj
    simp at hadj

lemma keys_transitiveReduce (g : Graph V) :
    keys (transitiveReduce g) = keys g := by
  simp [transitiveReduce, keys, List.map_map, Function.comp]

/-- Acyclic sample dependency graph: 0 → {1, 2}, 1 → {2}. -/
def demoGraph : Graph Nat := [(0, [1, 2]), (1, [2]), (2, [])]

/-- Cyclic sample graph: 0 → {1, 2}, 1 → {2}, 2 → {1}. -/
def cyclicDemo : Graph Nat := [(0, [1, 2]), (1, [2]), (2, [1])]

lemma cyclicDemo_keep1 : keepEdge cyclicDemo (adj cyclicDemo 0) 1 = false := by
  apply keepEdge_false_iff.mpr
  exact ⟨2, by decide, by decide, [1], Walk.cons (by decide) (Walk.nil 1)⟩

lemma cyclicDemo_keep2 : keepEdge cyclicDemo (adj cyclicDemo 0) 2 = false := by
  apply keepEdge_false_iff.mpr
  exact ⟨1, by decide, by decide, [2], Walk.cons (by decide) (Walk.nil 2)⟩

lemma cyclicDemo_reduce_adj_nil : adj (transitiveReduce cyclicDemo) 0 = [] := by
  rw [adj_transitiveReduce]
  have h0 : adj cyclicDemo 0 = [1, 2] := by decide
  have h1 := cyclicDemo_keep1
  have h2 := cyclicDemo_keep2
  rw [h0] at h1 h2 ⊢
  simp [List.filter_cons, h1, h2]

/-- C1: on an acyclic input graph, every edge of the reduced graph admits
no alternative reduced path of length ≥ 2, and every input edge retains a
(nonempty) path in the reduced graph. -/
theorem transitiveReduce_correct (g : Graph V) (hac : Acyclic g) :
    (∀ a b, b ∈ adj (transitiveReduce g) a →
       ∀ l, Walk (transitiveReduce g) a b l → l.length < 2) ∧
    (∀ a b, b ∈ adj g a →
       ∃ l, Walk (transitiveReduce g) a b l ∧ l ≠ []) := by
  constructor
  · intro a b hb l w
    by_contra hlen
    push_neg at hlen
    cases w with
    | nil => simp at hlen
    | @cons _ x _ l' hx w' =>
      have hxg : x ∈ adj g a := reduce_edge_subset hx
      have wg' : Walk g x b l' := reduce_walk_subset w'
      have hxb : x ≠ b := by
        rintro rfl
        have h0 : l' = [] := hac _ _ wg'
        subst h0
        simp at hlen
      have hkeep := (mem_adj_reduce_iff.mp hb).2
      have hfalse : keepEdge g (adj g a) b = false :=
        keepEdge_false_iff.mpr ⟨x, hxg, hxb, l', wg'⟩
      rw [hfalse] at hkeep
      exact Bool.false_ne_true hkeep
  · intro a b hb
    have hreach : ∃ l, Walk g a b l := ⟨[b], Walk.cons hb (Walk.nil b)⟩
    obtain ⟨l, wl, hmax⟩ := exists_max_walk hac hreach
    have hne : l ≠ [] := by
      rintro rfl
      have := hmax [b] (Walk.cons hb (Walk.nil b))
      simp at this
    exact ⟨l, max_walk_in_reduce wl hmax, hne⟩

/-- C1 witness: the theorem applied to the concrete acyclic graph
`demoGraph`, acyclicity discharged by a rank function. -/
theorem transitiveReduce_correct_witness :
    (∀ a b, b ∈ adj (transitiveReduce demoGraph) a →
       ∀ l, Walk (transitiveReduce demoGraph) a b l → l.length < 2) ∧
    (∀ a b, b ∈ adj demoGraph a →
       ∃ l, Walk (transitiveReduce demoGraph) a b l ∧ l ≠ []) :=
  transitiveReduce_correct demoGraph
    (acyclic_of_rank (fun n => 2 - n) (by decide))

/-- C10: the reduction returns a subgraph over the same node keys: keys are
preserved and every output edge is an input edge. -/
theorem transitiveReduce_subgraph (g : Graph V) :
    keys (transitiveReduce g) = keys g ∧
    ∀ a b, b ∈ adj (transitiveReduce g) a → b ∈ adj g a :=
  ⟨keys_transitiveReduce g, fun _ _ h => reduce_edge_subset h⟩

lemma demoGraph_reduce_has_edge :
    1 ∈ adj (transitiveReduce demoGraph) 0 := by
  refine mem_adj_reduce_iff.mpr ⟨by decide, ?_⟩
  unfold keepEdge
  have h0 : adj demoGraph 0 = [1, 2] := by decide
  have h1 : (([1, 2] : List Nat).filter (fun o => o ≠ 1)) = [2] := by decide
  rw [h0, h1]
  simp [dfsFound, adj, demoGraph]

/-- C10 witness: the subgraph theorem applied to `demoGraph` at the kept
edge (0, 1). -/
theorem transitiveReduce_subgraph_witness :
    keys (transitiveReduce demoGraph) = keys demoGraph ∧
    1 ∈ adj demoGraph 0 :=
  ⟨(transitiveReduce_subgraph demoGraph).1,
   (transitiveReduce_subgraph demoGraph).2 0 1 demoGraph_reduce_has_edge⟩

/-- C6 counterexample: on the cyclic input `cyclicDemo` the reduction
removes edge (0,1) although that leaves 1 unreachable from 0 in the
output, contradicting the claim for cyclic graphs. -/
theorem transitiveReduce_cycle_disconnects :
    (1 ∈ adj cyclicDemo 0) ∧ (1 ∉ adj (transitiveReduce cyclicDemo) 0) ∧
    ∀ l, ¬ Walk (transitiveReduce cyclicDemo) 0 1 l := by
  refine ⟨by decide, ?_, ?_⟩
  · rw [cyclicDemo_reduce_adj_nil]
    simp
  · intro l w
    have h := walk_of_adj_nil cyclicDemo_reduce_adj_nil w
    exact absurd h.1 (by decide)

/-- C6 amended: the reduction is total on every finite graph (it is a
terminating function); every removed edge had an alternative path in the
input graph; and on acyclic inputs every input edge keeps a path in the
output.  On cyclic inputs output reachability may be lost. -/
theorem transitiveReduce_cycle_safe (g : Graph V) :
    (keys (transitiveReduce g) = keys g) ∧
    (∀ a b, b ∈ adj g a → b ∉ adj (transitiveReduce g) a →
       ∃ x ∈ adj g a, x ≠ b ∧ Reach g x b) ∧
    (Acyclic g → ∀ a b, b ∈ adj g a → Reach (transitiveReduce g) a b) := by
  refine ⟨keys_transitiveReduce g, ?_, ?_⟩
  · intro a b hb hnb
    have hkeep : keepEdge g (adj g a) b = false := by
      cases hk : keepEdge g (adj g a) b
      · rfl
      · exact absurd (mem_adj_reduce_iff.mpr ⟨hb, hk⟩) hnb
    exact keepEdge_false_iff.mp hkeep
  · intro hac a b hb
    obtain ⟨l, wl, hmax⟩ :=
      exists_max_walk hac ⟨[b], Walk.cons hb (Walk.nil b)⟩
    exact ⟨l, max_walk_in_reduce wl hmax⟩

/-- C6 amended witness: applied to the cyclic graph (removed edge has an
alternative input path) and to the acyclic graph (reachability kept). -/
theorem transitiveReduce_cycle_safe_witness :
    (∃ x ∈ adj cyclicDemo 0, x ≠ 1 ∧ Reach cyclicDemo x 1) ∧
    Reach (transitiveReduce demoGraph) 0 1 :=
  ⟨(transitiveReduce_cycle_safe cyclicDemo).2.1 0 1 (by decide)
      (by rw [cyclicDemo_reduce_adj_nil]; simp),
   (transitiveReduce_cycle_safe demoGraph).2.2
      (acyclic_of_rank (fun n => 2 - n) (by decide)) 0 1 (by decide)⟩

/-! ## Semantic versions (checker.go) -/

/-- The `semver` struct of checker.go.  Machine ints become unbounded `Int`
(the version components in scope are far below overflow). -/
structure Semver where
  major : Int
  minor : Int
  patch : Int
  pre : String
  original : String
deriving DecidableEq, Repr

/-- Numeric value of a digit string (left-to-right accumulation, as in
`strconv.Atoi`). -/
def digitsToNat (l : List Char) : Nat :=
  l.foldl (fun a c => a * 10 + (c.toNat - 48)) 0

/-- Go's `strconv.Atoi`: optional single sign, then one or more digits.
Overflow is not modelled (inputs here are short version components). -/
def goAtoi : List Char → Option Int
  | [] => none
  | '+' :: rest =>
    if !rest.isEmpty && rest.all Char.isDigit then some (digitsToNat rest)
    else none
  | '-' :: rest =>
    if !rest.isEmpty && rest.all Char.isDigit then some (-(digitsToNat rest : Int))
    else none
  | l =>
    if l.all Char.isDigit then some (digitsToNat l) else none

/-- `strings.Split(s, ".")`: split at every dot, keeping empty pieces. -/
def splitOnDot : List Char → List (List Char)
  | [] => [[]]
  | '.' :: rest => [] :: splitOnDot rest
  | c :: rest =>
    match splitOnDot rest with
    | [] => [[c]]
    | p :: ps => (c :: p) :: ps

/-- `strings.IndexAny(s, "-+")` followed by the two slicings of
parseSemver: returns (part before the first `-`/`+`, part from it on). -/
def splitPre : List Char → List Char × List Char
  | [] => ([], [])
  | c :: rest =>
    if c = '-' ∨ c = '+' then ([], c :: rest)
    else
      let (core, pre) := splitPre rest
      (c :: core, pre)

/-- `parseSemver` from checker.go: strip one leading `v`, cut the
pre-release at the first `-`/`+`, require two or three dot-separated
integer components. -/
def parseSemver (s : String) : Option Semver :=
  let cs := s.toList
  let cs1 := match cs with
    | 'v' :: rest => rest
    | l => l
  let (core, preCs) := splitPre cs1
  let pre := String.mk preCs
  match (splitOnDot core).map goAtoi with
  | [some ma, some mi] => some ⟨ma, mi, 0, pre, s⟩
  | [some ma, some mi, some pa] => some ⟨ma, mi, pa, pre, s⟩
  | _ => none

/-- Lexicographic comparison of character lists: Go's `<` on strings
(bytewise UTF-8 order, which agrees with codepoint order). -/
def listLt : List Char → List Char → Bool
  | [], [] => false
  | [], _ :: _ => true
  | _ :: _, [] => false
  | a :: as, b :: bs =>
    if a < b then true
    else if b < a then false
    else listLt as bs

/-- Go's `<` on strings. -/
def goStrLt (a b : String) : Bool := listLt a.toList b.toList

/-- `semver.less` from checker.go. -/
def Semver.less (a b : Semver) : Bool :=
  if a.major ≠ b.major then decide (a.major < b.major)
  else if a.minor ≠ b.minor then decide (a.minor < b.minor)
  else if a.patch ≠ b.patch then decide (a.patch < b.patch)
  else if a.pre ≠ "" ∧ b.pre = "" then true
  else if a.pre = "" ∧ b.pre ≠ "" then false
  else goStrLt a.pre b.pre

/-- The comparison-relevant fields of a `Semver` (everything `less`
inspects; `original` is carried along but never compared). -/
def Semver.cmpKey (v : Semver) : Int × Int × Int × String :=
  (v.major, v.minor, v.patch, v.pre)

lemma listLt_irrefl (l : List Char) : listLt l l = false := by
  induction l with
  | nil => rfl
  | cons c cs ih => simp [listLt, lt_irrefl, ih]

lemma listLt_asymm : ∀ {a b : List Char}, listLt a b = true → listLt b a = false := by
  intro a
  induction a with
  | nil =>
    intro b h
    cases b with
    | nil => simp [listLt] at h
    | cons d ds => rfl
  | cons c cs ih =>
    intro b h
    cases b with
    | nil => simp [listLt] at h
    | cons d ds =>
      by_cases h1 : c < d
      · simp [listLt, h1, lt_asymm h1]
      · by_cases h2 : d < c
        · rw [listLt, if_neg h1, if_pos h2] at h
          exact absurd h (by simp)
        · have hcd : c = d := le_antisymm (not_lt.mp h2) (not_lt.mp h1)
          subst hcd
          rw [listLt, if_neg h1, if_neg h1] at h
          simp [listLt, h1, ih h]

lemma listLt_total : ∀ a b : List Char,
    a = b ∨ listLt a b = true ∨ listLt b a = true := by
  intro a
  induction a with
  | nil =>
    intro b
    cases b with
    | nil => exact Or.inl rfl
    | cons d ds => exact Or.inr (Or.inl rfl)
  | cons c cs ih =>
    intro b
    cases b with
    | nil => exact Or.inr (Or.inr rfl)
    | cons d ds =>
      rcases lt_trichotomy c d with h | h | h
      · exact Or.inr (Or.inl (by simp [listLt, h]))
      · subst h
        rcases ih ds with h' | h' | h'
        · exact Or.inl (by rw [h'])
        · exact Or.inr (Or.inl (by simp [listLt, lt_irrefl, h']))
        · exact Or.inr (Or.inr (by simp [listLt, lt_irrefl, h']))
      · exact Or.inr (Or.inr (by simp [listLt, h]))

lemma goStrLt_trichotomy (a b : String) :
    goStrLt a b = true ↔ (goStrLt b a = false ∧ a ≠ b) := by
  unfold goStrLt
  constructor
  · intro h
    refine ⟨listLt_asymm h, ?_⟩
    rintro rfl
    rw [listLt_irrefl] at h
    exact absurd h (by simp)
  · rintro ⟨hf, hne⟩
    rcases listLt_total a.toList b.toList with h | h | h
    · exact absurd (by
        apply String.ext
        exact h) hne
    · exact h
    · rw [h] at hf
      exact absurd hf (by simp)

lemma semver_less_iff (a b : Semver) :
    a.less b = true ↔ (¬ b.less a = true ∧ a.cmpKey ≠ b.cmpKey) := by
  by_cases h1 : a.major = b.major
  · by_cases h2 : a.minor = b.minor
    · by_cases h3 : a.patch = b.patch
      · have hkey : (a.cmpKey ≠ b.cmpKey) ↔ a.pre ≠ b.pre := by
          simp [Semver.cmpKey, Prod.ext_iff, h1, h2, h3]
        by_cases hpa : a.pre = ""
        · by_cases hpb : b.pre = ""
          · have hL : a.less b = false := by
              unfold Semver.less
              simp [h1, h2, h3, hpa, hpb]
              decide
            have hR : b.less a = false := by
              unfold Semver.less
              simp [h1, h2, h3, hpa, hpb]
              decide
            rw [hL, hR, hkey, hpa, hpb]
            simp
          · have hL : a.less b = false := by
              unfold Semver.less
              simp [h1, h2, h3, hpa, hpb]
            have hR : b.less a = true := by
              unfold Semver.less
              simp [h1, h2, h3, hpa, hpb]
            rw [hL, hR]
            simp
        · by_cases hpb : b.pre = ""
          · have hL : a.less b = true := by
              unfold Semver.less
              simp [h1, h2, h3, hpa, hpb]
            have hR : b.less a = false := by
              unfold Semver.less
              simp [h1, h2, h3, hpa, hpb]
            rw [hL, hR, hkey]
            simp [hpa, hpb]
          · have hL : a.less b = goStrLt a.pre b.pre := by
              unfold Semver.less
              simp [h1, h2, h3, hpa, hpb]
            have hR : b.less a = goStrLt b.pre a.pre := by
              unfold Semver.less
              simp [h1, h2, h3, hpa, hpb]
            rw [hL, hR, hkey, goStrLt_trichotomy]
            simp [Bool.not_eq_true]
      · have hkeyn : a.cmpKey ≠ b.cmpKey := by
          simp [Semver.cmpKey, Prod.ext_iff, h3]
        have hL : a.less b = decide (a.patch < b.patch) := by
          unfold Semver.less
          simp [h1, h2, h3]
        have hR : b.less a = decide (b.patch < a.patch) := by
          unfold Semver.less
          simp [h1.symm, h2.symm, Ne.symm h3]
        rw [hL, hR]
        simp [hkeyn, decide_eq_true_eq]
        omega
    · have hkeyn : a.cmpKey ≠ b.cmpKey := by
        simp [Semver.cmpKey, Prod.ext_iff, h2]
      have hL : a.less b = decide (a.minor < b.minor) := by
        unfold Semver.less
        simp [h1, h2]
      have hR : b.less a = decide (b.minor < a.minor) := by
        unfold Semver.less
        simp [h1.symm, Ne.symm h2]
      rw [hL, hR]
      simp [hkeyn, decide_eq_true_eq]
      omega
  · have hkeyn : a.cmpKey ≠ b.cmpKey := by
      simp [Semver.cmpKey, Prod.ext_iff, h1]
    have hL : a.less b = decide (a.major < b.major) := by
      unfold Semver.less
      simp [h1]
    have hR : b.less a = decide (b.major < a.major) := by
      unfold Semver.less
      simp [Ne.symm h1]
    rw [hL, hR]
    simp [hkeyn, decide_eq_true_eq]
    omega

lemma listLt_trans : ∀ {a b c : List Char},
    listLt a b = true → listLt b c = true → listLt a c = true := by
  intro a
  induction a with
  | nil =>
    intro b c h1 h2
    cases b with
    | nil => simp [listLt] at h1
    | cons d ds =>
      cases c with
      | nil => simp [listLt] at h2
      | cons e es => rfl
  | cons x xs ih =>
    intro b c h1 h2
    cases b with
    | nil => simp [listLt] at h1
    | cons d ds =>
      cases c with
      | nil => simp [listLt] at h2
      | cons e es =>
        rcases lt_trichotomy d e with hde | hde | hde
        · rcases lt_trichotomy x d with hxd | hxd | hxd
          · simp [listLt, hxd.trans hde]
          · subst hxd
            simp [listLt, hde]
          · exfalso
            simp [listLt, lt_asymm hxd, hxd] at h1
        · subst hde
          simp only [listLt, lt_irrefl, if_false] at h2
          rcases lt_trichotomy x d with hxd | hxd | hxd
          · simp [listLt, hxd]
          · subst hxd
            simp only [listLt, lt_irrefl, if_false] at h1
            simp [listLt, lt_irrefl, ih h1 h2]
          · exfalso
            simp [listLt, lt_asymm hxd, hxd] at h1
        · exfalso
          simp [listLt, lt_asymm hde, hde] at h2

/-- The pre-release comparison implemented by the tail of `semver.less`,
as a proposition. -/
def PreLt (x y : String) : Prop :=
  (x ≠ "" ∧ y = "") ∨ (x ≠ "" ∧ y ≠ "" ∧ goStrLt x y = true)

lemma less_eq_true_iff (a b : Semver) :
    a.less b = true ↔
      (a.major < b.major ∨ (a.major = b.major ∧
        (a.minor < b.minor ∨ (a.minor = b.minor ∧
          (a.patch < b.patch ∨ (a.patch = b.patch ∧
            PreLt a.pre b.pre)))))) := by
  unfold Semver.less
  by_cases h1 : a.major = b.major
  · by_cases h2 : a.minor = b.minor
    · by_cases h3 : a.patch = b.patch
      · by_cases hpa : a.pre = ""
        · by_cases hpb : b.pre = ""
          · simp [h1, h2, h3, hpa, hpb, PreLt]
            decide
          · simp [h1, h2, h3, hpa, hpb, PreLt]
        · by_cases hpb : b.pre = ""
          · simp [h1, h2, h3, hpa, hpb, PreLt]
          · simp [h1, h2, h3, hpa, hpb, PreLt]
      · simp [h1, h2, h3, PreLt]
    · simp [h1, h2, PreLt]
  · simp [h1, PreLt]

lemma preLt_trans {x y z : String} (h1 : PreLt x y) (h2 : PreLt y z) :
    PreLt x z := by
  rcases h1 with ⟨hx, hy⟩ | ⟨hx, hy, hxy⟩
  · rcases h2 with ⟨hy', _⟩ | ⟨hy', _, _⟩
    · exact absurd hy hy'
    · exact absurd hy hy'
  · rcases h2 with ⟨_, hz⟩ | ⟨_, hz, hyz⟩
    · exact Or.inl ⟨hx, hz⟩
    · exact Or.inr ⟨hx, hz, listLt_trans hxy hyz⟩

lemma less_trans {a b c : Semver} (h1 : a.less b = true)
    (h2 : b.less c = true) : a.less c = true := by
  rw [less_eq_true_iff] at h1 h2 ⊢
  rcases h1 with h1 | ⟨e1, h1⟩
  · rcases h2 with h2 | ⟨e2, h2⟩
    · exact Or.inl (h1.trans h2)
    · exact Or.inl (e2 ▸ h1)
  · rcases h2 with h2 | ⟨e2, h2⟩
    · exact Or.inl (e1 ▸ h2)
    · refine Or.inr ⟨e1.trans e2, ?_⟩
      rcases h1 with h1 | ⟨f1, h1⟩
      · rcases h2 with h2 | ⟨f2, h2⟩
        · exact Or.inl (h1.trans h2)
        · exact Or.inl (f2 ▸ h1)
      · rcases h2 with h2 | ⟨f2, h2⟩
        · exact Or.inl (f1 ▸ h2)
        · refine Or.inr ⟨f1.trans f2, ?_⟩
          rcases h1 with h1 | ⟨g1, h1⟩
          · rcases h2 with h2 | ⟨g2, h2⟩
            · exact Or.inl (h1.trans h2)
            · exact Or.inl (g2 ▸ h1)
          · rcases h2 with h2 | ⟨g2, h2⟩
            · exact Or.inl (g1 ▸ h2)
            · exact Or.inr ⟨g1.trans g2, preLt_trans h1 h2⟩

lemma less_congr_left {a a' b : Semver} (h : a.cmpKey = a'.cmpKey) :
    a.less b = a'.less b := by
  unfold Semver.cmpKey at h
  simp only [Prod.mk.injEq] at h
  obtain ⟨h1, h2, h3, h4⟩ := h
  unfold Semver.less
  rw [h1, h2, h3, h4]

lemma less_congr_right {a b b' : Semver} (h : b.cmpKey = b'.cmpKey) :
    a.less b = a.less b' := by
  unfold Semver.cmpKey at h
  simp only [Prod.mk.injEq] at h
  obtain ⟨h1, h2, h3, h4⟩ := h
  unfold Semver.less
  rw [h1, h2, h3, h4]

/-- "Not above": `a` is at most `b` in the `less` order. -/
def svLe (a b : Semver) : Prop := a.less b = true ∨ a.cmpKey = b.cmpKey

lemma svLe_refl (a : Semver) : svLe a a := Or.inr rfl

lemma svLe_trans {a b c : Semver} (h1 : svLe a b) (h2 : svLe b c) :
    svLe a c := by
  rcases h1 with h1 | h1
  · rcases h2 with h2 | h2
    · exact Or.inl (less_trans h1 h2)
    · exact Or.inl ((less_congr_right h2) ▸ h1)
  · rcases h2 with h2 | h2
    · exact Or.inl ((less_congr_left h1).symm ▸ h2)
    · exact Or.inr (h1.trans h2)

lemma svLe_of_not_less {a b : Semver} (h : b.less a = false) : svLe a b := by
  have h0 : ¬ (b.less a = true) := by simp [h]
  have hr : ¬ (¬ a.less b = true ∧ b.cmpKey ≠ a.cmpKey) :=
    fun hr => h0 ((semver_less_iff b a).mpr hr)
  rw [not_and_or] at hr
  rcases hr with hc | hc
  · rw [not_not] at hc
    exact Or.inl hc
  · rw [not_not] at hc
    exact Or.inr hc.symm

/-- C3 counterexample: the strings "1.2" and "1.2.0" are both accepted by
`parseSemver`, their parsed values differ (in `original`), yet `less` holds
in neither direction, refuting trichotomy with respect to value
inequality. -/
theorem semver_trichotomy_counterexample :
    parseSemver "1.2" = some ⟨1, 2, 0, "", "1.2"⟩ ∧
    parseSemver "1.2.0" = some ⟨1, 2, 0, "", "1.2.0"⟩ ∧
    ¬ ((Semver.less ⟨1, 2, 0, "", "1.2"⟩ ⟨1, 2, 0, "", "1.2.0"⟩ = true) ↔
       (¬ Semver.less ⟨1, 2, 0, "", "1.2.0"⟩ ⟨1, 2, 0, "", "1.2"⟩ = true ∧
        (⟨1, 2, 0, "", "1.2"⟩ : Semver) ≠ ⟨1, 2, 0, "", "1.2.0"⟩)) := by
  refine ⟨by decide, by decide, ?_⟩
  decide

/-- C3 (amended): for values accepted by `parseSemver`, `less` is a strict
total order on the comparison key (major, minor, patch, pre) — trichotomy
holds with value inequality weakened to comparison-key inequality — and a
version with a non-empty pre-release is below the same triple without
one. -/
theorem semver_less_trichotomy (sa sb : String) (va vb : Semver)
    (ha : parseSemver sa = some va) (hb : parseSemver sb = some vb) :
    (va.less vb = true ↔
      (¬ vb.less va = true ∧ va.cmpKey ≠ vb.cmpKey)) ∧
    (va.major = vb.major → va.minor = vb.minor → va.patch = vb.patch →
      va.pre ≠ "" → vb.pre = "" → va.less vb = true) := by
  refine ⟨semver_less_iff va vb, ?_⟩
  intro h1 h2 h3 hp hq
  unfold Semver.less
  simp [h1, h2, h3, hp, hq]

/-! ## Variant-aware tag selection (image_checker.go) -/

/-- Matches the regex fragment `\d+\.\d+(?:\.\d+)?` anchored at the head of
`cs` (digit runs greedy, the third component optional); returns the matched
characters and the remainder. -/
def matchSemverAt (cs : List Char) : Option (List Char × List Char) :=
  let d1 := cs.takeWhile Char.isDigit
  let r1 := cs.dropWhile Char.isDigit
  if d1.isEmpty then none
  else
    match r1 with
    | '.' :: r2 =>
      let d2 := r2.takeWhile Char.isDigit
      let r3 := r2.dropWhile Char.isDigit
      if d2.isEmpty then none
      else
        match r3 with
        | '.' :: r4 =>
          let d3 := r4.takeWhile Char.isDigit
          let r5 := r4.dropWhile Char.isDigit
          if d3.isEmpty then some (d1 ++ '.' :: d2, r3)
          else some (d1 ++ '.' :: d2 ++ '.' :: d3, r5)
        | _ => some (d1 ++ '.' :: d2, r3)
    | _ => none

/-- `semverInTagRe.FindStringSubmatch`: the lazy leading group takes the
shortest prefix after which the semver group matches, so scan positions
left to right; the lazy trailing group is forced to take the remainder. -/
def findSemverSplit : List Char → Option (List Char × List Char × List Char)
  | [] => none
  | c :: rest =>
    match matchSemverAt (c :: rest) with
    | some (sv, suf) => some ([], sv, suf)
    | none =>
      match findSemverSplit rest with
      | some (p, sv, suf) => some (c :: p, sv, suf)
      | none => none

/-- The `variant` struct: prefix and suffix around the semver substring. -/
structure Variant where
  varPre : String
  varSuf : String
deriving DecidableEq, Repr

/-- `variant.key()` from image_checker.go. -/
def Variant.key (v : Variant) : String := v.varPre ++ "|" ++ v.varSuf

/-- `extractVariant` from image_checker.go: split the tag around its first
embedded semver and parse that substring. -/
def extractVariant (tag : String) : Option (Variant × Semver) :=
  match findSemverSplit tag.toList with
  | none => none
  | some (p, sv, suf) =>
    match parseSemver (String.mk sv) with
    | none => none
    | some s => some (⟨String.mk p, String.mk suf⟩, s)

/-- Loop body of `highestMatchingTag`: skip candidates without a semver,
with a different variant key, or with a pre-release; otherwise keep the
larger of the current best and the candidate. -/
def bestStep (dv : Variant) (best : String × Semver) (t : String) :
    String × Semver :=
  match extractVariant t with
  | none => best
  | some (v, sv) =>
    if v.key ≠ dv.key then best
    else if sv.pre ≠ "" then best
    else if best.2.less sv then (t, sv) else best

/-- The fold over all candidate tags, seeded with the deployed tag. -/
def bestMatch (dv : Variant) (deployedTag : String) (dsv : Semver)
    (allTags : List String) : String × Semver :=
  allTags.foldl (bestStep dv) (deployedTag, dsv)

/-- `highestMatchingTag` from image_checker.go. -/
def highestMatchingTag (deployedTag : String) (allTags : List String) :
    String :=
  match extractVariant deployedTag with
  | none => "-"
  | some (dv, dsv) => (bestMatch dv deployedTag dsv allTags).1

lemma bestStep_le (dv : Variant) (best : String × Semver) (t : String) :
    svLe best.2 (bestStep dv best t).2 := by
  unfold bestStep
  cases hx : extractVariant t with
  | none => exact svLe_refl _
  | some p =>
    obtain ⟨v, sv⟩ := p
    by_cases hk : v.key ≠ dv.key
    · simp only [if_pos hk]
      exact svLe_refl _
    · by_cases hp : sv.pre ≠ ""
      · simp only [if_neg hk, if_pos hp]
        exact svLe_refl _
      · by_cases hl : best.2.less sv
        · simp only [if_neg hk, if_neg hp, if_pos hl]
          exact Or.inl hl
        · simp only [if_neg hk, if_neg hp, if_neg hl]
          exact svLe_refl _

lemma bestMatch_fold_le (dv : Variant) :
    ∀ (ts : List String) (init : String × Semver),
      svLe init.2 (ts.foldl (bestStep dv) init).2 := by
  intro ts
  induction ts with
  | nil => intro init; exact svLe_refl _
  | cons t rest ih =>
    intro init
    exact svLe_trans (bestStep_le dv init t) (ih (bestStep dv init t))

lemma bestMatch_fold_dominates (dv : Variant) :
    ∀ (ts : List String) (init : String × Semver),
      ∀ t ∈ ts, ∀ v sv, extractVariant t = some (v, sv) →
        v.key = dv.key → sv.pre = "" →
        svLe sv ((ts.foldl (bestStep dv) init).2) := by
  intro ts
  induction ts with
  | nil =>
    intro init t ht
    simp at ht
  | cons u rest ih =>
    intro init t ht v sv hx hk hp
    rcases List.mem_cons.mp ht with rfl | ht'
    · refine svLe_trans ?_ (bestMatch_fold_le dv rest (bestStep dv init t))
      unfold bestStep
      rw [hx]
      simp only [hk, ne_eq, not_true_eq_false, if_false, hp,
        not_false_eq_true]
      by_cases hl : init.2.less sv
      · simp [hl]
        exact svLe_refl _
      · simp [hl]
        exact svLe_of_not_less (Bool.not_eq_true _ ▸ hl)
    · exact ih (bestStep dv init u) t ht' v sv hx hk hp

lemma bestMatch_fold_cases (dv : Variant) :
    ∀ (ts : List String) (init : String × Semver),
      ts.foldl (bestStep dv) init = init ∨
      (∃ t ∈ ts, ∃ v, extractVariant t =
          some (v, (ts.foldl (bestStep dv) init).2) ∧
        v.key = dv.key ∧ (ts.foldl (bestStep dv) init).2.pre = "" ∧
        (ts.foldl (bestStep dv) init).1 = t) := by
  intro ts
  induction ts with
  | nil => intro init; exact Or.inl rfl
  | cons u rest ih =>
    intro init
    rcases ih (bestStep dv init u) with h | h
    · rw [List.foldl_cons, h]
      unfold bestStep
      cases hx : extractVariant u with
      | none => exact Or.inl rfl
      | some p =>
        obtain ⟨v, sv⟩ := p
        by_cases hk : v.key ≠ dv.key
        · simp only [if_pos hk]
          exact Or.inl trivial
        · by_cases hp : sv.pre ≠ ""
          · simp only [if_neg hk, if_pos hp]
            exact Or.inl trivial
          · by_cases hl : init.2.less sv
            · simp only [if_neg hk, if_neg hp, if_pos hl]
              refine Or.inr ⟨u, List.mem_cons_self _ _, v, ?_, ?_, ?_, rfl⟩
              · exact hx
              · exact not_not.mp hk
              · exact not_not.mp hp
            · simp only [if_neg hk, if_neg hp, if_neg hl]
              exact Or.inl trivial
    · obtain ⟨t, ht, v, hx, hk, hp, heq⟩ := h
      rw [List.foldl_cons]
      exact Or.inr ⟨t, List.mem_cons_of_mem _ ht, v, hx, hk, hp, heq⟩

/-- C2: `highestMatchingTag` returns the sentinel for tags without an
embedded semver; otherwise it returns either the deployed tag or a
candidate sharing the deployed variant with empty pre-release, its semver
dominating the deployed one and every variant-matching non-pre-release
candidate; and the variant example evaluates as specified. -/
theorem highestMatchingTag_correct (deployedTag : String)
    (allTags : List String) :
    (extractVariant deployedTag = none →
      highestMatchingTag deployedTag allTags = "-") ∧
    (∀ dv dsv, extractVariant deployedTag = some (dv, dsv) →
      (highestMatchingTag deployedTag allTags =
          (bestMatch dv deployedTag dsv allTags).1 ∧
       svLe dsv (bestMatch dv deployedTag dsv allTags).2 ∧
       (bestMatch dv deployedTag dsv allTags = (deployedTag, dsv) ∨
         ((bestMatch dv deployedTag dsv allTags).1 ∈ allTags ∧
          ∃ v, extractVariant (bestMatch dv deployedTag dsv allTags).1 =
              some (v, (bestMatch dv deployedTag dsv allTags).2) ∧
            v.key = dv.key ∧
            (bestMatch dv deployedTag dsv allTags).2.pre = "")) ∧
       (∀ t ∈ allTags, ∀ v sv, extractVariant t = some (v, sv) →
         v.key = dv.key → sv.pre = "" →
         svLe sv (bestMatch dv deployedTag dsv allTags).2))) ∧
    highestMatchingTag "1.20-alpine" ["1.21-alpine", "1.21", "1.22-slim"]
      = "1.21-alpine" := by
  refine ⟨?_, ?_, by decide⟩
  · intro h
    unfold highestMatchingTag
    rw [h]
  · intro dv dsv h
    refine ⟨?_, ?_, ?_, ?_⟩
    · unfold highestMatchingTag
      rw [h]
    · exact bestMatch_fold_le dv allTags (deployedTag, dsv)
    · rcases bestMatch_fold_cases dv allTags (deployedTag, dsv) with hc | hc
      · exact Or.inl hc
      · obtain ⟨t, ht, v, hx, hk, hp, heq⟩ := hc
        exact Or.inr ⟨heq ▸ ht, v, heq ▸ hx, hk, hp⟩
    · exact bestMatch_fold_dominates dv allTags (deployedTag, dsv)

/-- C2 witness: the theorem applied to the deployed tag "1.20-alpine" and
the candidate list of the spec example, with the `some` branch
discharged. -/
theorem highestMatchingTag_correct_witness :
    svLe ⟨1, 20, 0, "", "1.20"⟩
      (bestMatch ⟨"", "-alpine"⟩ "1.20-alpine" ⟨1, 20, 0, "", "1.20"⟩
        ["1.21-alpine", "1.21", "1.22-slim"]).2 ∧
    highestMatchingTag "1.20-alpine" ["1.21-alpine", "1.21", "1.22-slim"]
      = "1.21-alpine" :=
  ⟨((highestMatchingTag_correct "1.20-alpine"
      ["1.21-alpine", "1.21", "1.22-slim"]).2.1 ⟨"", "-alpine"⟩
      ⟨1, 20, 0, "", "1.20"⟩ (by decide)).2.1,
   (highestMatchingTag_correct "1.20-alpine"
      ["1.21-alpine", "1.21", "1.22-slim"]).2.2⟩

/-- C3 witness: the amended theorem applied to the concrete parseable
strings "1.2.3-rc1" and "1.2.3". -/
theorem semver_less_trichotomy_witness :
    ((Semver.less ⟨1, 2, 3, "-rc1", "1.2.3-rc1"⟩ ⟨1, 2, 3, "", "1.2.3"⟩ = true ↔
      (¬ Semver.less ⟨1, 2, 3, "", "1.2.3"⟩ ⟨1, 2, 3, "-rc1", "1.2.3-rc1"⟩ = true ∧
       Semver.cmpKey ⟨1, 2, 3, "-rc1", "1.2.3-rc1"⟩ ≠
         Semver.cmpKey ⟨1, 2, 3, "", "1.2.3"⟩)) ∧
     ((1 : Int) = 1 → (2 : Int) = 2 → (3 : Int) = 3 →
      ("-rc1" : String) ≠ "" → ("" : String) = "" →
      Semver.less ⟨1, 2, 3, "-rc1", "1.2.3-rc1"⟩ ⟨1, 2, 3, "", "1.2.3"⟩ = true)) :=
  semver_less_trichotomy "1.2.3-rc1" "1.2.3" _ _ (by decide) (by decide)

/-! ## Cluster data model (model/types.go and its uses in
dependencies.go).  Only the fields read by the dependency synthesizer are
carried; `FluxKustomization` and `ServiceEntryInfo` gain the `Cluster`
field that dependencies.go reads (`k.Cluster`, `se.Cluster`). -/

structure Kustomization where
  name : String
  cluster : String
  path : String
  dependsOn : List String
deriving DecidableEq, Repr

structure ServiceEntry where
  name : String
  cluster : String
  network : String
  location : String
deriving DecidableEq, Repr

structure ClusterData where
  flux : List Kustomization
  serviceEntries : List ServiceEntry
deriving DecidableEq, Repr

/-- `FlowNode` from dependencies.go. -/
structure FlowNode where
  id : String
  label : String
  cluster : String
  layer : String
deriving DecidableEq, Repr

/-- `FlowEdge` from dependencies.go. -/
structure FlowEdge where
  id : String
  source : String
  target : String
  crossCluster : Bool
deriving DecidableEq, Repr

/-- ASCII lowering of one character (`strings.ToLower` restricted to the
ASCII identifiers that occur here). -/
def lowerChar (c : Char) : Char :=
  if 'A' ≤ c ∧ c ≤ 'Z' then Char.ofNat (c.toNat + 32) else c

/-- `strings.ToLower` as a character list. -/
def toLowerS (s : String) : List Char := s.toList.map lowerChar

/-- `strings.Contains(s, sub)`. -/
def containsSub (s sub : List Char) : Bool :=
  match s with
  | [] => sub.isEmpty
  | _ :: rest => sub.isPrefixOf s || containsSub rest sub

/-- Cluster-qualified node id `{Cluster}/{Name}`. -/
def kustID (k : Kustomization) : String := k.cluster ++ "/" ++ k.name

/-- The distinct cluster names of the Flux kustomizations (Go builds a
set; the list stands in for it, membership being all that is used). -/
def clusterNamesOf (data : ClusterData) : List String :=
  (data.flux.map (fun k => k.cluster)).dedup

/-- The `networkToCluster` lookup: a network label maps to the cluster
whose lowercased name plus "-network" equals the lowercased label. -/
def networkToCluster (clusters : List String) (network : String) :
    Option String :=
  clusters.find? (fun c =>
    decide (toLowerS c ++ String.toList "-network" = toLowerS network))

/-- `findBestKust` from dependencies.go: among kustomizations of the
cluster whose lowercased name contains the service name, prefer the
highest score `100 - len(name)` (ties to the first seen; the very first
match is always taken); fall back to the first name containing
"platform". -/
def findBestKust (flux : List Kustomization) (cluster svcName : String) :
    String :=
  let svcLower := toLowerS svcName
  let best := flux.foldl (fun (best : String × Int) k =>
    if k.cluster ≠ cluster then best
    else
      let nameLower := toLowerS k.name
      if containsSub nameLower svcLower then
        let score : Int := 100 - (nameLower.length : Int)
        if score > best.2 ∨ best.1 = "" then (k.cluster ++ "/" ++ k.name, score)
        else best
      else best) ("", 0)
  if best.1 = "" then
    match flux.find? (fun k => decide (k.cluster = cluster) &&
        containsSub (toLowerS k.name) (String.toList "platform")) with
    | some k => k.cluster ++ "/" ++ k.name
    | none => ""
  else best.1

/-- The canonical key of an unordered endpoint pair, as dependencies.go
computes it (swap so the lexicographically smaller endpoint comes
first). -/
def unorderedKey (s t : String) : String :=
  if listLt t.toList s.toList then t ++ "→" ++ s else s ++ "→" ++ t

/-- Emission tail of the ServiceEntry loop: validate the two resolved
endpoints, de-duplicate by unordered pair key, and append the
provider → consumer edge. -/
def xcEmit (idSet : List String) (st : List String × List FlowEdge)
    (sourceKust targetKust : String) : List String × List FlowEdge :=
  if sourceKust = "" ∨ targetKust = "" then st
  else if ¬ (sourceKust ∈ idSet ∧ targetKust ∈ idSet) then st
  else
    let pairKey := unorderedKey targetKust sourceKust
    if pairKey ∈ st.1 then st
    else (pairKey :: st.1,
      st.2 ++ [{ id := "xc:" ++ targetKust ++ "->" ++ sourceKust,
                 source := targetKust, target := sourceKust,
                 crossCluster := true }])

/-- The service name derived from a ServiceEntry: its name with the
lowercase target-cluster prefix stripped. -/
def svcNameOf (targetCluster : String) (se : ServiceEntry) : String :=
  if (toLowerS targetCluster ++ ['-']).isPrefixOf (toLowerS se.name)
  then String.mk (se.name.toList.drop (targetCluster.length + 1))
  else se.name

/-- The consumer-side endpoint: best kustomization of the entry's own
cluster. -/
def sourceKustOf (data : ClusterData) (targetCluster : String)
    (se : ServiceEntry) : String :=
  findBestKust data.flux se.cluster (svcNameOf targetCluster se)

/-- The provider-side endpoint: best kustomization of the derived target
cluster. -/
def targetKustOf (data : ClusterData) (targetCluster : String)
    (se : ServiceEntry) : String :=
  findBestKust data.flux targetCluster (svcNameOf targetCluster se)

/-- One iteration of the ServiceEntry loop of `discoverCrossClusterEdges`;
the state is (seen pair keys, emitted edges). -/
def xcStep (data : ClusterData) (idSet : List String)
    (st : List String × List FlowEdge) (se : ServiceEntry) :
    List String × List FlowEdge :=
  if se.location ≠ "MESH_EXTERNAL" ∨ se.network = "" then st
  else
    match networkToCluster (clusterNamesOf data) se.network with
    | none => st
    | some targetCluster =>
      if se.cluster = targetCluster then st
      else
        xcEmit idSet st (sourceKustOf data targetCluster se)
          (targetKustOf data targetCluster se)

/-- `discoverCrossClusterEdges` from dependencies.go. -/
def discoverCrossClusterEdges (data : ClusterData) (idSet : List String) :
    List FlowEdge :=
  (data.serviceEntries.foldl (xcStep data idSet) ([], [])).2

/-- Loop invariant of the ServiceEntry fold: every emitted edge is tagged
cross-cluster and its unordered pair key is recorded in `seen`; the pair
keys of the emitted edges are pairwise distinct. -/
def XcInv (st : List String × List FlowEdge) : Prop :=
  (∀ e ∈ st.2, e.crossCluster = true ∧
    unorderedKey e.source e.target ∈ st.1) ∧
  (st.2.map (fun e => unorderedKey e.source e.target)).Nodup

lemma xcEmit_inv (idSet : List String) (st : List String × List FlowEdge)
    (sourceKust targetKust : String) (h : XcInv st) :
    XcInv (xcEmit idSet st sourceKust targetKust) := by
  unfold xcEmit
  split
  · exact h
  · split
    · exact h
    · dsimp only
      split
      · exact h
      · next hmem =>
        obtain ⟨hAll, hNd⟩ := h
        constructor
        · intro e he
          rcases List.mem_append.mp he with he | he
          · obtain ⟨hc, hk⟩ := hAll e he
            exact ⟨hc, List.mem_cons_of_mem _ hk⟩
          · rw [List.mem_singleton] at he
            subst he
            exact ⟨rfl, List.mem_cons_self _ _⟩
        · rw [List.map_append]
          refine List.Nodup.append hNd (List.nodup_singleton _) ?_
          intro k hk1 hk2
          rw [List.map_singleton, List.mem_singleton] at hk2
          subst hk2
          rcases List.mem_map.mp hk1 with ⟨e', he', hke⟩
          exact hmem (hke ▸ (hAll e' he').2)

lemma xcStep_inv (data : ClusterData) (idSet : List String)
    (st : List String × List FlowEdge) (se : ServiceEntry)
    (h : XcInv st) : XcInv (xcStep data idSet st se) := by
  unfold xcStep
  split
  · exact h
  · split
    · exact h
    · split
      · exact h
      · exact xcEmit_inv idSet st _ _ h

lemma xcFold_inv (data : ClusterData) (idSet : List String) :
    ∀ (ses : List ServiceEntry) (st : List String × List FlowEdge),
      XcInv st → XcInv (ses.foldl (xcStep data idSet) st) := by
  intro ses
  induction ses with
  | nil => intro st h; exact h
  | cons se rest ih =>
    intro st h
    exact ih _ (xcStep_inv data idSet st se h)

/-- Converse bookkeeping invariant: every recorded pair key belongs to
some emitted edge. -/
def XcSeen (st : List String × List FlowEdge) : Prop :=
  ∀ k ∈ st.1, ∃ e ∈ st.2,
    unorderedKey e.source e.target = k ∧ e.crossCluster = true

lemma xcEmit_edges_mono (idSet : List String)
    (st : List String × List FlowEdge) (sk tk : String) :
    ∀ e ∈ st.2, e ∈ (xcEmit idSet st sk tk).2 := by
  intro e he
  unfold xcEmit
  split
  · exact he
  · split
    · exact he
    · dsimp only
      split
      · exact he
      · exact List.mem_append_left _ he

lemma xcStep_edges_mono (data : ClusterData) (idSet : List String)
    (st : List String × List FlowEdge) (se : ServiceEntry) :
    ∀ e ∈ st.2, e ∈ (xcStep data idSet st se).2 := by
  intro e he
  unfold xcStep
  split
  · exact he
  · split
    · exact he
    · split
      · exact he
      · exact xcEmit_edges_mono idSet st _ _ e he

lemma xcFold_edges_mono (data : ClusterData) (idSet : List String) :
    ∀ (ses : List ServiceEntry) (st : List String × List FlowEdge),
      ∀ e ∈ st.2, e ∈ (ses.foldl (xcStep data idSet) st).2 := by
  intro ses
  induction ses with
  | nil => intro st e he; exact he
  | cons se rest ih =>
    intro st e he
    rw [List.foldl_cons]
    exact ih _ e (xcStep_edges_mono data idSet st se e he)

lemma xcEmit_seen (idSet : List String)
    (st : List String × List FlowEdge) (sk tk : String)
    (h : XcSeen st) : XcSeen (xcEmit idSet st sk tk) := by
  unfold xcEmit
  split
  · exact h
  · split
    · exact h
    · dsimp only
      split
      · exact h
      · intro k hk
        rcases List.mem_cons.mp hk with rfl | hk'
        · exact ⟨⟨"xc:" ++ tk ++ "->" ++ sk, tk, sk, true⟩,
            List.mem_append_right _ (List.mem_singleton.mpr rfl), rfl, rfl⟩
        · obtain ⟨e, he, hke, hce⟩ := h k hk'
          exact ⟨e, List.mem_append_left _ he, hke, hce⟩

lemma xcStep_seen (data : ClusterData) (idSet : List String)
    (st : List String × List FlowEdge) (se : ServiceEntry)
    (h : XcSeen st) : XcSeen (xcStep data idSet st se) := by
  unfold xcStep
  split
  · exact h
  · split
    · exact h
    · split
      · exact h
      · exact xcEmit_seen idSet st _ _ h

/-- With the guards of the loop satisfied, the step reduces to the
emission tail on the two resolved endpoints. -/
lemma xcStep_emit_eq (data : ClusterData) (idSet : List String)
    (st : List String × List FlowEdge) (se : ServiceEntry) (tc : String)
    (hloc : se.location = "MESH_EXTERNAL") (hn : se.network ≠ "")
    (hnet : networkToCluster (clusterNamesOf data) se.network = some tc)
    (hcl : ¬ se.cluster = tc) :
    xcStep data idSet st se =
      xcEmit idSet st (sourceKustOf data tc se) (targetKustOf data tc se)
    := by
  unfold xcStep
  rw [if_neg (by
    rintro (h | h)
    · exact h hloc
    · exact hn h)]
  simp only [hnet]
  rw [if_neg hcl]

/-- First occurrence of an unordered pair: the emission tail appends the
provider → consumer edge tagged crossCluster and records the pair key. -/
lemma xcEmit_emits (idSet : List String)
    (st : List String × List FlowEdge) (sk tk : String)
    (hsk : sk ≠ "") (htk : tk ≠ "")
    (hmem : sk ∈ idSet ∧ tk ∈ idSet)
    (hnew : unorderedKey tk sk ∉ st.1) :
    xcEmit idSet st sk tk =
      (unorderedKey tk sk :: st.1,
       st.2 ++ [{ id := "xc:" ++ tk ++ "->" ++ sk, source := tk,
                  target := sk, crossCluster := true }]) := by
  unfold xcEmit
  rw [if_neg (by
    rintro (h | h)
    · exact hsk h
    · exact htk h)]
  rw [if_neg (not_not.mpr hmem)]
  dsimp only
  rw [if_neg hnew]

/-- Valid endpoints always leave an edge with their unordered pair in the
emission tail's output (a fresh one, or the already-emitted one the
dedup kept). -/
lemma xcEmit_exists (idSet : List String)
    (st : List String × List FlowEdge) (sk tk : String)
    (hsk : sk ≠ "") (htk : tk ≠ "")
    (hmem : sk ∈ idSet ∧ tk ∈ idSet) (hseen : XcSeen st) :
    ∃ e ∈ (xcEmit idSet st sk tk).2,
      e.crossCluster = true ∧
      unorderedKey e.source e.target = unorderedKey tk sk := by
  by_cases hnew : unorderedKey tk sk ∈ st.1
  · obtain ⟨e, he, hke, hce⟩ := hseen _ hnew
    exact ⟨e, xcEmit_edges_mono idSet st sk tk e he, hce, hke⟩
  · rw [xcEmit_emits idSet st sk tk hsk htk hmem hnew]
    exact ⟨⟨"xc:" ++ tk ++ "->" ++ sk, tk, sk, true⟩,
      List.mem_append_right _ (List.mem_singleton.mpr rfl), rfl, rfl⟩

/-- Run-level emission: every qualifying ServiceEntry leaves an edge with
its unordered endpoint pair in the fold's output. -/
lemma xcFold_emits (data : ClusterData) (idSet : List String) :
    ∀ (ses : List ServiceEntry) (st : List String × List FlowEdge),
      XcSeen st →
      ∀ se ∈ ses, ∀ tc : String,
        se.location = "MESH_EXTERNAL" → se.network ≠ "" →
        networkToCluster (clusterNamesOf data) se.network = some tc →
        se.cluster ≠ tc →
        sourceKustOf data tc se ≠ "" → targetKustOf data tc se ≠ "" →
        sourceKustOf data tc se ∈ idSet → targetKustOf data tc se ∈ idSet →
        ∃ e ∈ (ses.foldl (xcStep data idSet) st).2,
          e.crossCluster = true ∧
          unorderedKey e.source e.target =
            unorderedKey (targetKustOf data tc se) (sourceKustOf data tc se)
    := by
  intro ses
  induction ses with
  | nil =>
    intro st _ se hse
    simp at hse
  | cons se0 rest ih =>
    intro st hseen se hse tc hloc hn hnet hcl hsk htk hmems hmemt
    rcases List.mem_cons.mp hse with rfl | hse'
    · rw [List.foldl_cons, xcStep_emit_eq data idSet st se tc hloc hn hnet hcl]
      obtain ⟨e, he, hce, hke⟩ :=
        xcEmit_exists idSet st (sourceKustOf data tc se)
          (targetKustOf data tc se) hsk htk ⟨hmems, hmemt⟩ hseen
      exact ⟨e, xcFold_edges_mono data idSet rest _ e he, hce, hke⟩
    · rw [List.foldl_cons]
      exact ih (xcStep data idSet st se0)
        (xcStep_seen data idSet st se0 hseen) se hse' tc hloc hn hnet hcl
        hsk htk hmems hmemt

/-- The S3 scenario: secondary cluster NAS runs `minio`, primary Homelab
runs `nas-minio` with a MESH_EXTERNAL ServiceEntry on `nas-network`. -/
def s3Data : ClusterData :=
  { flux := [⟨"minio", "NAS", "", []⟩, ⟨"nas-minio", "Homelab", "", []⟩],
    serviceEntries :=
      [⟨"nas-minio", "Homelab", "nas-network", "MESH_EXTERNAL"⟩] }

def s3IdSet : List String := ["NAS/minio", "Homelab/nas-minio"]

/-- C5: cross-cluster discovery emits only crossCluster-tagged edges with
pairwise distinct unordered endpoint pairs; it drops every ServiceEntry
whose derived target cluster equals its own cluster; every qualifying
MESH_EXTERNAL entry with a non-empty network whose two endpoints resolve
in different clusters emits a target → source crossCluster edge — the
first occurrence of an unordered pair appends exactly that edge, and
after de-duplication an edge with that unordered endpoint pair is always
present in the output; and the S3 input produces exactly the edge
NAS/minio → Homelab/nas-minio. -/
theorem discoverCrossClusterEdges_correct (data : ClusterData)
    (idSet : List String) :
    (∀ e ∈ discoverCrossClusterEdges data idSet, e.crossCluster = true) ∧
    ((discoverCrossClusterEdges data idSet).map
        (fun e => unorderedKey e.source e.target)).Nodup ∧
    (∀ (st : List String × List FlowEdge) (se : ServiceEntry) (tc : String),
      se.location = "MESH_EXTERNAL" →
      networkToCluster (clusterNamesOf data) se.network = some tc →
      se.cluster = tc → xcStep data idSet st se = st) ∧
    (∀ (st : List String × List FlowEdge) (se : ServiceEntry) (tc : String),
      se.location = "MESH_EXTERNAL" → se.network ≠ "" →
      networkToCluster (clusterNamesOf data) se.network = some tc →
      se.cluster ≠ tc →
      sourceKustOf data tc se ≠ "" → targetKustOf data tc se ≠ "" →
      sourceKustOf data tc se ∈ idSet → targetKustOf data tc se ∈ idSet →
      unorderedKey (targetKustOf data tc se) (sourceKustOf data tc se)
          ∉ st.1 →
      xcStep data idSet st se =
        (unorderedKey (targetKustOf data tc se) (sourceKustOf data tc se)
            :: st.1,
         st.2 ++ [{ id := "xc:" ++ targetKustOf data tc se ++ "->" ++
                      sourceKustOf data tc se,
                    source := targetKustOf data tc se,
                    target := sourceKustOf data tc se,
                    crossCluster := true }])) ∧
    (∀ se ∈ data.serviceEntries, ∀ tc : String,
      se.location = "MESH_EXTERNAL" → se.network ≠ "" →
      networkToCluster (clusterNamesOf data) se.network = some tc →
      se.cluster ≠ tc →
      sourceKustOf data tc se ≠ "" → targetKustOf data tc se ≠ "" →
      sourceKustOf data tc se ∈ idSet → targetKustOf data tc se ∈ idSet →
      ∃ e ∈ discoverCrossClusterEdges data idSet,
        e.crossCluster = true ∧
        unorderedKey e.source e.target =
          unorderedKey (targetKustOf data tc se) (sourceKustOf data tc se))
      ∧
    discoverCrossClusterEdges s3Data s3IdSet =
      [{ id := "xc:NAS/minio->Homelab/nas-minio", source := "NAS/minio",
         target := "Homelab/nas-minio", crossCluster := true }] := by
  have hinv := xcFold_inv data idSet data.serviceEntries ([], [])
    ⟨by intro e he; simp at he, by simp⟩
  refine ⟨?_, ?_, ?_, ?_, ?_, by decide⟩
  · intro e he
    exact (hinv.1 e he).1
  · exact hinv.2
  · intro st se tc hloc hnet hcl
    unfold xcStep
    by_cases hn : se.network = ""
    · rw [if_pos (Or.inr hn)]
    · rw [if_neg (by
        rintro (h | h)
        · exact h hloc
        · exact hn h)]
      simp only [hnet]
      rw [if_pos hcl]
  · intro st se tc hloc hn hnet hcl hsk htk hmems hmemt hnew
    rw [xcStep_emit_eq data idSet st se tc hloc hn hnet hcl]
    exact xcEmit_emits idSet st _ _ hsk htk ⟨hmems, hmemt⟩ hnew
  · intro se hse tc hloc hn hnet hcl hsk htk hmems hmemt
    exact xcFold_emits data idSet data.serviceEntries ([], [])
      (by intro k hk; simp at hk) se hse tc hloc hn hnet hcl hsk htk
      hmems hmemt

/-- C5 witness: on the S3 data, the skip rule applied to an entry whose
derived target cluster equals its own cluster, and the emission rule
applied to the S3 ServiceEntry, whose endpoints resolve to NAS/minio and
Homelab/nas-minio. -/
theorem discoverCrossClusterEdges_correct_witness :
    (xcStep s3Data s3IdSet ([], []) ⟨"some-entry", "NAS", "nas-network",
      "MESH_EXTERNAL"⟩ = ([], [])) ∧
    (∃ e ∈ discoverCrossClusterEdges s3Data s3IdSet,
      e.crossCluster = true ∧
      unorderedKey e.source e.target =
        unorderedKey
          (targetKustOf s3Data "NAS"
            ⟨"nas-minio", "Homelab", "nas-network", "MESH_EXTERNAL"⟩)
          (sourceKustOf s3Data "NAS"
            ⟨"nas-minio", "Homelab", "nas-network", "MESH_EXTERNAL"⟩)) :=
  ⟨(discoverCrossClusterEdges_correct s3Data s3IdSet).2.2.1 ([], [])
      ⟨"some-entry", "NAS", "nas-network", "MESH_EXTERNAL"⟩ "NAS"
      rfl (by decide) rfl,
   (discoverCrossClusterEdges_correct s3Data s3IdSet).2.2.2.2.1
      ⟨"nas-minio", "Homelab", "nas-network", "MESH_EXTERNAL"⟩
      (List.mem_singleton.mpr rfl) "NAS" rfl (by decide) (by decide)
      (by decide) (by decide) (by decide) (by decide) (by decide)⟩

/-! ## GenerateDependencies (dependencies.go) -/

/-- Go's `<=` on strings (bytewise), as the relation the sorts use. -/
def strLeProp (a b : String) : Prop := listLt b.toList a.toList = false

instance : DecidableRel strLeProp := fun a b =>
  inferInstanceAs (Decidable (listLt b.toList a.toList = false))

instance : IsTotal String strLeProp :=
  ⟨fun a b => by
    unfold strLeProp
    cases h : listLt b.toList a.toList
    · exact Or.inl rfl
    · exact Or.inr (listLt_asymm h)⟩

instance : IsTrans String strLeProp :=
  ⟨fun a b c hab hbc => by
    unfold strLeProp at hab hbc ⊢
    by_contra hca
    have hca' : listLt c.toList a.toList = true := by
      cases h : listLt c.toList a.toList
      · exact absurd h hca
      · rfl
    rcases listLt_total a.toList b.toList with h | h | h
    · rw [h] at hca'
      rw [hca'] at hbc
      exact absurd hbc (by simp)
    · have := listLt_trans hca' h
      rw [this] at hbc
      exact absurd hbc (by simp)
    · rw [h] at hab
      exact absurd hab (by simp)⟩

instance : IsAntisymm String strLeProp :=
  ⟨fun a b hab hba => by
    unfold strLeProp at hab hba
    rcases listLt_total a.toList b.toList with h | h | h
    · exact String.ext h
    · rw [h] at hba
      exact absurd hba (by simp)
    · rw [h] at hab
      exact absurd hab (by simp)⟩

/-- Node ordering of the `sort.Slice` on nodes: by `id`. -/
def nodeLe (a b : FlowNode) : Prop := strLeProp a.id b.id

instance : DecidableRel nodeLe := fun a b =>
  inferInstanceAs (Decidable (strLeProp a.id b.id))

instance : IsTotal FlowNode nodeLe :=
  ⟨fun a b => IsTotal.total (r := strLeProp) a.id b.id⟩

instance : IsTrans FlowNode nodeLe :=
  ⟨fun a b c hab hbc => IsTrans.trans (r := strLeProp) a.id b.id c.id hab hbc⟩

/-- Lexicographic order on edges by (source, target): the order the spec
asserts. -/
def edgeLeST (a b : FlowEdge) : Prop :=
  listLt a.source.toList b.source.toList = true ∨
    (a.source = b.source ∧ strLeProp a.target b.target)

instance : DecidableRel edgeLeST := fun a b =>
  inferInstanceAs (Decidable (_ ∨ _))

/-- Lexicographic order on edges by (target, source): the order the code
actually emits. -/
def edgeLeTS (a b : FlowEdge) : Prop :=
  listLt a.target.toList b.target.toList = true ∨
    (a.target = b.target ∧ strLeProp a.source b.source)

/-- The flow payload (nodes and edges of the `content` JSON). -/
structure FlowData where
  nodes : List FlowNode
  edges : List FlowEdge
deriving DecidableEq, Repr

/-- `extractLayer` from dependencies.go. -/
def splitOnSlash : List Char → List (List Char)
  | [] => [[]]
  | '/' :: rest => [] :: splitOnSlash rest
  | c :: rest =>
    match splitOnSlash rest with
    | [] => [[c]]
    | p :: ps => (c :: p) :: ps

def extractLayer (path : String) : String :=
  let cs := if (String.toList "./").isPrefixOf path.toList
            then path.toList.drop 2 else path.toList
  match splitOnSlash cs with
  | _ :: _ :: p2 :: _ => String.mk p2
  | p0 :: _ => if p0.isEmpty then "unknown" else String.mk p0
  | [] => "unknown"

/-- Node id set of the snapshot. -/
def idSetOf (data : ClusterData) : List String := data.flux.map kustID

/-- The dependency graph with cluster-qualified ids; `dependsOn` names
that do not resolve inside the same cluster are dropped. -/
def depGraphOf (data : ClusterData) : Graph String :=
  data.flux.map (fun k =>
    (kustID k, ((k.dependsOn.map (fun d => k.cluster ++ "/" ++ d)).filter
        (fun depID => depID ∈ idSetOf data)).dedup))

def mkDepEdge (dep id : String) : FlowEdge :=
  { id := dep ++ "->" ++ id, source := dep, target := id,
    crossCluster := false }

/-- The edge-emission loops: outer over the sorted node ids, inner over
that node's sorted dependencies. -/
def edgesFor (reduced : Graph String) (sortedIDs : List String) :
    List FlowEdge :=
  (sortedIDs.map (fun id =>
    (List.insertionSort strLeProp (adj reduced id)).map
      (fun dep => mkDepEdge dep id))).flatten

def nodeOf (k : Kustomization) : FlowNode :=
  { id := kustID k, label := k.name, cluster := k.cluster,
    layer := extractLayer k.path }

/-- `GenerateDependencies`, parameterized by the iteration order of the
`depGraph` map (Go map range order is arbitrary; the code sorts it). -/
def generateDependenciesWith (data : ClusterData) (order : List String) :
    FlowData :=
  if data.flux.isEmpty then { nodes := [], edges := [] }
  else
    let reduced := transitiveReduce (depGraphOf data)
    let nodes := List.insertionSort nodeLe (data.flux.map nodeOf)
    let edges := edgesFor reduced (List.insertionSort strLeProp order)
    { nodes := nodes,
      edges := edges ++ discoverCrossClusterEdges data (idSetOf data) }

/-- `GenerateDependencies` with the canonical iteration order. -/
def generateDependencies (data : ClusterData) : FlowData :=
  generateDependenciesWith data (keys (depGraphOf data))

lemma xc_empty_flux (data : ClusterData) (idSet : List String)
    (h : data.flux = []) :
    discoverCrossClusterEdges data idSet = [] := by
  unfold discoverCrossClusterEdges
  suffices hs : ∀ (ses : List ServiceEntry) (st : List String × List FlowEdge),
      ses.foldl (xcStep data idSet) st = st by
    rw [hs]
  intro ses
  induction ses with
  | nil => intro st; rfl
  | cons se rest ih =>
    intro st
    rw [List.foldl_cons]
    have hstep : xcStep data idSet st se = st := by
      unfold xcStep
      split
      · rfl
      · have hcn : clusterNamesOf data = [] := by
          unfold clusterNamesOf
          rw [h]
          rfl
        have hnet : networkToCluster (clusterNamesOf data) se.network = none := by
          rw [hcn]
          rfl
        rw [hnet]
    rw [hstep]
    exact ih st

/-- Go's deterministic choice of sorted ids is insensitive to the map
iteration order. -/
lemma insertionSort_perm_eq {l₁ l₂ : List String} (h : l₁.Perm l₂) :
    List.insertionSort strLeProp l₁ = List.insertionSort strLeProp l₂ :=
  List.eq_of_perm_of_sorted
    ((List.perm_insertionSort _ _).trans (h.trans
      (List.perm_insertionSort _ _).symm))
    (List.sorted_insertionSort _ _) (List.sorted_insertionSort _ _)

/-- Concrete snapshot refuting the claimed (source, target) edge order:
A depends on C and B depends on A, all in cluster x. -/
def depsDemo : ClusterData :=
  { flux := [⟨"A", "x", "", ["C"]⟩, ⟨"B", "x", "", ["A"]⟩, ⟨"C", "x", "", []⟩],
    serviceEntries := [] }

lemma depsDemo_adjA :
    adj (transitiveReduce (depGraphOf depsDemo)) "x/A" = ["x/C"] := by
  rw [adj_transitiveReduce]
  have h1 : adj (depGraphOf depsDemo) "x/A" = ["x/C"] := by decide
  rw [h1]
  have hk : keepEdge (depGraphOf depsDemo) ["x/C"] "x/C" = true := by
    unfold keepEdge
    have h2 : (["x/C"].filter (fun o => o ≠ "x/C")) = ([] : List String) := by
      decide
    rw [h2]
    simp [dfsFound]
  simp [List.filter_cons, hk]

lemma depsDemo_adjB :
    adj (transitiveReduce (depGraphOf depsDemo)) "x/B" = ["x/A"] := by
  rw [adj_transitiveReduce]
  have h1 : adj (depGraphOf depsDemo) "x/B" = ["x/A"] := by decide
  rw [h1]
  have hk : keepEdge (depGraphOf depsDemo) ["x/A"] "x/A" = true := by
    unfold keepEdge
    have h2 : (["x/A"].filter (fun o => o ≠ "x/A")) = ([] : List String) := by
      decide
    rw [h2]
    simp [dfsFound]
  simp [List.filter_cons, hk]

lemma depsDemo_adjC :
    adj (transitiveReduce (depGraphOf depsDemo)) "x/C" = [] := by
  rw [adj_transitiveReduce]
  have h1 : adj (depGraphOf depsDemo) "x/C" = [] := by decide
  rw [h1]
  rfl

lemma depsDemo_edges : (generateDependencies depsDemo).edges =
    [mkDepEdge "x/C" "x/A", mkDepEdge "x/A" "x/B"] := by
  unfold generateDependencies generateDependenciesWith
  rw [if_neg (by decide : ¬ (depsDemo.flux.isEmpty = true))]
  dsimp only
  have hids : List.insertionSort strLeProp (keys (depGraphOf depsDemo)) =
      ["x/A", "x/B", "x/C"] := by decide
  unfold edgesFor
  rw [hids]
  simp only [List.map_cons, List.map_nil, depsDemo_adjA, depsDemo_adjB,
    depsDemo_adjC]
  have hcross : discoverCrossClusterEdges depsDemo (idSetOf depsDemo) = [] :=
    rfl
  rw [hcross]
  decide

/-- C4 counterexample: the concrete snapshot `depsDemo` produces the edge
list [(x/C → x/A), (x/A → x/B)], which is not sorted by (source, target)
as the claim asserts. -/
theorem generateDependencies_edges_not_source_sorted :
    ¬ List.Pairwise edgeLeST (generateDependencies depsDemo).edges := by
  rw [depsDemo_edges]
  intro hp
  have h := (List.pairwise_cons.mp hp).1 (mkDepEdge "x/A" "x/B")
    (List.mem_cons_self _ _)
  exact absurd h (by decide)

/-- C4 (amended): nodes are sorted by id; the dependency edges are sorted
by (target, source) — not (source, target) — with the cross-cluster edges
appended after them; the output is insensitive to the map iteration
order, so identical inputs give identical payloads. -/
theorem generateDependencies_det (data : ClusterData) (order : List String)
    (hperm : order.Perm (keys (depGraphOf data)))
    (hnd : (keys (depGraphOf data)).Nodup) :
    generateDependenciesWith data order = generateDependencies data ∧
    List.Pairwise nodeLe (generateDependencies data).nodes ∧
    List.Pairwise edgeLeTS
      (edgesFor (transitiveReduce (depGraphOf data))
        (List.insertionSort strLeProp (keys (depGraphOf data)))) ∧
    (generateDependencies data).edges =
      edgesFor (transitiveReduce (depGraphOf data))
          (List.insertionSort strLeProp (keys (depGraphOf data))) ++
        discoverCrossClusterEdges data (idSetOf data) := by
  refine ⟨?_, ?_, ?_, ?_⟩
  · unfold generateDependencies generateDependenciesWith
    rw [insertionSort_perm_eq hperm]
  · unfold generateDependencies generateDependenciesWith
    split
    · exact List.Pairwise.nil
    · exact List.sorted_insertionSort _ _
  · have hsorted : List.Pairwise strLeProp
        (List.insertionSort strLeProp (keys (depGraphOf data))) :=
      List.sorted_insertionSort _ _
    have hnodup : (List.insertionSort strLeProp
        (keys (depGraphOf data))).Nodup :=
      ((List.perm_insertionSort strLeProp _).nodup_iff).mpr hnd
    have hstrict : List.Pairwise (fun a b => strLeProp a b ∧ a ≠ b)
        (List.insertionSort strLeProp (keys (depGraphOf data))) :=
      hsorted.and hnodup
    unfold edgesFor
    apply List.pairwise_flatten.mpr
    constructor
    · intro l hl
      rcases List.mem_map.mp hl with ⟨id, hid, rfl⟩
      have hdeps : List.Pairwise strLeProp (List.insertionSort strLeProp
          (adj (transitiveReduce (depGraphOf data)) id)) :=
        List.sorted_insertionSort _ _
      refine List.Pairwise.map _ ?_ hdeps
      intro d1 d2 h12
      exact Or.inr ⟨rfl, h12⟩
    · refine List.Pairwise.map _ ?_ hstrict
      rintro id1 id2 ⟨hle, hne⟩ a ha b hb
      rcases List.mem_map.mp ha with ⟨d1, _, rfl⟩
      rcases List.mem_map.mp hb with ⟨d2, _, rfl⟩
      left
      rcases listLt_total id1.toList id2.toList with h | h | h
      · exact absurd (String.ext h) hne
      · exact h
      · exact absurd (h.symm.trans hle) (by simp)
  · by_cases hE : data.flux.isEmpty
    · have hflux : data.flux = [] := List.isEmpty_iff.mp hE
      have hkeys : keys (depGraphOf data) = [] := by
        unfold depGraphOf keys
        rw [hflux]
        rfl
      unfold generateDependencies generateDependenciesWith
      rw [if_pos hE, hkeys, xc_empty_flux data (idSetOf data) hflux]
      rfl
    · unfold generateDependencies generateDependenciesWith
      rw [if_neg hE]

/-- C4 witness: the amended theorem applied to the concrete snapshot
`depsDemo` with the canonical iteration order. -/
theorem generateDependencies_det_witness :
    generateDependenciesWith depsDemo (keys (depGraphOf depsDemo)) =
        generateDependencies depsDemo ∧
    List.Pairwise nodeLe (generateDependencies depsDemo).nodes ∧
    List.Pairwise edgeLeTS
      (edgesFor (transitiveReduce (depGraphOf depsDemo))
        (List.insertionSort strLeProp (keys (depGraphOf depsDemo)))) ∧
    (generateDependencies depsDemo).edges =
      edgesFor (transitiveReduce (depGraphOf depsDemo))
          (List.insertionSort strLeProp (keys (depGraphOf depsDemo))) ++
        discoverCrossClusterEdges depsDemo (idSetOf depsDemo) :=
  generateDependencies_det depsDemo (keys (depGraphOf depsDemo))
    (List.Perm.refl _) (by decide)

/-! ## ImageChecker.Check rate-limit handling (image_checker.go).
HTTP is an oracle `net : registry → path → FetchResult`; the loop over the
repo map is a fold over an explicit entry list (Go map order is
arbitrary); `calls` logs every `listTags` request with its registry
host. -/

structure RepoInfo where
  registry : String
  path : String
  tags : List String
deriving DecidableEq, Repr

/-- Outcome of `listTags`: a tag list, an error whose text contains
"429", or any other error. -/
inductive FetchResult where
  | ok (tags : List String)
  | err429
  | errOther
deriving DecidableEq, Repr

structure CheckState where
  results : String → Option String
  skip : List String
  calls : List String

/-- `for tag := range ri.tags { results[image+"|"+tag] = "-" }`. -/
def setDash (results : String → Option String) (image : String)
    (tags : List String) : String → Option String :=
  fun k => if k ∈ tags.map (fun tag => image ++ "|" ++ tag) then some "-"
           else results k

/-- The success branch: for each deployed tag, record the highest matching
tag under both the tag key and a self-referencing latest key. -/
def okUpdate (image : String) (allTags : List String)
    (results : String → Option String) (tags : List String) :
    String → Option String :=
  tags.foldl (fun res tag =>
    let latest := highestMatchingTag tag allTags
    fun k => if k = image ++ "|" ++ tag then some latest
             else if k = image ++ "|" ++ latest then some latest
             else res k) results

/-- One iteration of the repo loop of `ImageChecker.Check`. -/
def checkStep (net : String → String → FetchResult) (st : CheckState)
    (entry : String × RepoInfo) : CheckState :=
  if entry.2.registry ∈ st.skip then
    { st with results := setDash st.results entry.1 entry.2.tags }
  else
    match net entry.2.registry entry.2.path with
    | .ok allTags =>
      { st with
        results := okUpdate entry.1 allTags st.results entry.2.tags,
        calls := st.calls ++ [entry.2.registry] }
    | .err429 =>
      { st with
        results := setDash st.results entry.1 entry.2.tags,
        skip := entry.2.registry :: st.skip,
        calls := st.calls ++ [entry.2.registry] }
    | .errOther =>
      { st with
        results := setDash st.results entry.1 entry.2.tags,
        calls := st.calls ++ [entry.2.registry] }

/-- The whole repo loop of one `Check` invocation. -/
def imageCheckRun (net : String → String → FetchResult)
    (repos : List (String × RepoInfo)) : CheckState :=
  repos.foldl (checkStep net) ⟨fun _ => none, [], []⟩

/-- The final merge of `results` into the `ic.latest` cache. -/
def mergeCache (cache : String → String)
    (results : String → Option String) : String → String :=
  fun k => match results k with
  | some v => v
  | none => cache k

lemma setDash_dash {results : String → Option String} {image : String}
    {tags : List String} {tag : String} (h : tag ∈ tags) :
    setDash results image tags (image ++ "|" ++ tag) = some "-" := by
  unfold setDash
  rw [if_pos (List.mem_map.mpr ⟨tag, h, rfl⟩)]

lemma setDash_keeps_dash {results : String → Option String} {image : String}
    {tags : List String} {k : String} (h : results k = some "-") :
    setDash results image tags k = some "-" := by
  unfold setDash
  split
  · rfl
  · exact h

lemma okUpdate_untouched {image : String} {allTags : List String}
    {results : String → Option String} {tags : List String} {k : String}
    (h : ∀ s, k ≠ image ++ "|" ++ s) :
    okUpdate image allTags results tags k = results k := by
  unfold okUpdate
  induction tags generalizing results with
  | nil => rfl
  | cons t rest ih =>
    rw [List.foldl_cons]
    rw [ih]
    show (if k = image ++ "|" ++ t then some (highestMatchingTag t allTags)
      else if k = image ++ "|" ++ highestMatchingTag t allTags
      then some (highestMatchingTag t allTags)
      else results k) = results k
    rw [if_neg (h t), if_neg (h _)]

/-- A "-" entry survives the remaining iterations provided no later
successful repo writes under the same key. -/
lemma dash_preserved (net : String → String → FetchResult) :
    ∀ (rest : List (String × RepoInfo)) (st : CheckState) (k : String),
      st.results k = some "-" →
      (∀ e2 ∈ rest,
        (∃ tags, net e2.2.registry e2.2.path = FetchResult.ok tags) →
        ∀ s, k ≠ e2.1 ++ "|" ++ s) →
      (rest.foldl (checkStep net) st).results k = some "-" := by
  intro rest
  induction rest with
  | nil =>
    intro st k h _
    exact h
  | cons e2 tail ih =>
    intro st k h hdisj
    rw [List.foldl_cons]
    refine ih (checkStep net st e2) k ?_
      (fun e he hok => hdisj e (List.mem_cons_of_mem _ he) hok)
    unfold checkStep
    split
    · exact setDash_keeps_dash h
    · cases hx : net e2.2.registry e2.2.path with
      | ok allTags =>
        show okUpdate e2.1 allTags st.results e2.2.tags k = some "-"
        rw [okUpdate_untouched
          (hdisj e2 (List.mem_cons_self _ _) ⟨allTags, hx⟩)]
        exact h
      | err429 => exact setDash_keeps_dash h
      | errOther => exact setDash_keeps_dash h

lemma calls_count_inv (net : String → String → FetchResult) (h : String)
    (h429 : ∀ p, net h p = FetchResult.err429) :
    ∀ (repos : List (String × RepoInfo)) (st : CheckState),
      (h ∉ st.skip → (st.calls.filter (fun r => r = h)).length = 0) →
      (st.calls.filter (fun r => r = h)).length ≤ 1 →
      ((repos.foldl (checkStep net) st).calls.filter
        (fun r => r = h)).length ≤ 1 := by
  intro repos
  induction repos with
  | nil =>
    intro st _ h1
    exact h1
  | cons e tail ih =>
    intro st h0 h1
    rw [List.foldl_cons]
    by_cases hreg : e.2.registry = h
    · by_cases hskip : e.2.registry ∈ st.skip
      · have hstep : checkStep net st e =
            { st with results := setDash st.results e.1 e.2.tags } := by
          unfold checkStep
          rw [if_pos hskip]
        rw [hstep]
        exact ih _ h0 h1
      · have hstep : checkStep net st e =
            { st with
              results := setDash st.results e.1 e.2.tags,
              skip := e.2.registry :: st.skip,
              calls := st.calls ++ [e.2.registry] } := by
          unfold checkStep
          rw [if_neg hskip, hreg, h429 e.2.path]
        rw [hstep]
        have hc0 : (st.calls.filter (fun r => r = h)).length = 0 :=
          h0 (hreg ▸ hskip)
        refine ih _ ?_ ?_
        · intro hns
          exact absurd (List.mem_cons_self _ _) (hreg ▸ hns)
        · rw [List.filter_append, List.length_append, hc0]
          simp [hreg]
    · have hcalls : (checkStep net st e).calls = st.calls ∨
          (checkStep net st e).calls = st.calls ++ [e.2.registry] := by
        unfold checkStep
        split
        · exact Or.inl rfl
        · cases net e.2.registry e.2.path
          · exact Or.inr rfl
          · exact Or.inr rfl
          · exact Or.inr rfl
      have hmono : h ∈ st.skip → h ∈ (checkStep net st e).skip := by
        unfold checkStep
        split
        · exact id
        · cases net e.2.registry e.2.path
          · exact id
          · exact List.mem_cons_of_mem _
          · exact id
      have hfe : ((checkStep net st e).calls.filter
          (fun r => r = h)).length = (st.calls.filter
          (fun r => r = h)).length := by
        rcases hcalls with hc | hc
        · rw [hc]
        · rw [hc, List.filter_append, List.length_append]
          simp [hreg]
      refine ih _ ?_ ?_
      · intro hns
        rw [hfe]
        exact h0 (fun hm => hns (hmono hm))
      · rw [hfe]
        exact h1

lemma skip_mono (net : String → String → FetchResult) (st : CheckState)
    (e : String × RepoInfo) (hh : String) (h : hh ∈ st.skip) :
    hh ∈ (checkStep net st e).skip := by
  unfold checkStep
  split
  · exact h
  · cases net e.2.registry e.2.path
    · exact h
    · exact List.mem_cons_of_mem _ h
    · exact h

lemma setDash_untouched {results : String → Option String} {image : String}
    {tags : List String} {k : String}
    (h : ∀ s, k ≠ image ++ "|" ++ s) :
    setDash results image tags k = results k := by
  unfold setDash
  rw [if_neg]
  intro hk
  rcases List.mem_map.mp hk with ⟨t, _, ht⟩
  exact h t ht.symm

/-- A 429 answered by a host that is not yet marked skip: the step marks
the host, maps all deployed tags of that image to "-", and logs exactly
this one request. -/
lemma checkStep_429 (net : String → String → FetchResult)
    (st : CheckState) (e : String × RepoInfo)
    (hns : e.2.registry ∉ st.skip)
    (h429 : net e.2.registry e.2.path = FetchResult.err429) :
    checkStep net st e =
      { st with results := setDash st.results e.1 e.2.tags,
                skip := e.2.registry :: st.skip,
                calls := st.calls ++ [e.2.registry] } := by
  unfold checkStep
  rw [if_neg hns, h429]

/-- Once a host is in the skip set, the rest of the invocation issues no
request to it: the filtered call log never grows. -/
lemma skip_no_calls (net : String → String → FetchResult) :
    ∀ (ses : List (String × RepoInfo)) (st : CheckState) (hh : String),
      hh ∈ st.skip →
      (ses.foldl (checkStep net) st).calls.filter (fun r => r = hh)
        = st.calls.filter (fun r => r = hh) := by
  intro ses
  induction ses with
  | nil =>
    intro st hh _
    rfl
  | cons e rest ih =>
    intro st hh hmem
    rw [List.foldl_cons]
    have hstep : (checkStep net st e).calls.filter (fun r => r = hh)
        = st.calls.filter (fun r => r = hh) := by
      unfold checkStep
      split
      · rfl
      · next hns =>
        have hne : e.2.registry ≠ hh := fun hc => hns (hc ▸ hmem)
        cases net e.2.registry e.2.path
        all_goals
          show ((st.calls ++ [e.2.registry]).filter (fun r => r = hh)) = _
        all_goals
          simp [List.filter_append, hne]
    rw [ih _ hh (skip_mono net st e hh hmem), hstep]

/-- A "-" entry survives once its host is skipped: only a successful repo
of another host could overwrite it, and those write different keys. -/
lemma dash_preserved_skip (net : String → String → FetchResult) :
    ∀ (rest : List (String × RepoInfo)) (st : CheckState) (k hh : String),
      hh ∈ st.skip → st.results k = some "-" →
      (∀ e2 ∈ rest, e2.2.registry ≠ hh → ∀ s : String,
        k ≠ e2.1 ++ "|" ++ s) →
      (rest.foldl (checkStep net) st).results k = some "-" := by
  intro rest
  induction rest with
  | nil =>
    intro st k hh _ h _
    exact h
  | cons e2 tail ih =>
    intro st k hh hskip h hdisj
    rw [List.foldl_cons]
    refine ih _ k hh (skip_mono net st e2 hh hskip) ?_
      (fun e he hne => hdisj e (List.mem_cons_of_mem _ he) hne)
    unfold checkStep
    split
    · exact setDash_keeps_dash h
    · next hns =>
      have hne : e2.2.registry ≠ hh := fun hc => hns (hc ▸ hskip)
      cases hx : net e2.2.registry e2.2.path with
      | ok allTags =>
        show okUpdate e2.1 allTags st.results e2.2.tags k = some "-"
        rw [okUpdate_untouched (hdisj e2 (List.mem_cons_self _ _) hne)]
        exact h
      | err429 => exact setDash_keeps_dash h
      | errOther => exact setDash_keeps_dash h

/-- Every image of an already-skipped host that is processed later has
all its deployed tags mapped to "-" at the end of the invocation. -/
lemma skip_dashes (net : String → String → FetchResult) :
    ∀ (ses : List (String × RepoInfo)) (st : CheckState) (hh : String),
      hh ∈ st.skip →
      ∀ e ∈ ses, e.2.registry = hh → ∀ tag ∈ e.2.tags,
      (∀ e2 ∈ ses, e2.2.registry ≠ hh → ∀ s : String,
        e.1 ++ "|" ++ tag ≠ e2.1 ++ "|" ++ s) →
      (ses.foldl (checkStep net) st).results (e.1 ++ "|" ++ tag)
        = some "-" := by
  intro ses
  induction ses with
  | nil =>
    intro st hh _ e he
    simp at he
  | cons e0 rest ih =>
    intro st hh hskip e he hreg tag htag hdisj
    rw [List.foldl_cons]
    rcases List.mem_cons.mp he with rfl | he'
    · refine dash_preserved_skip net rest (checkStep net st e)
        (e.1 ++ "|" ++ tag) hh (skip_mono net st e hh hskip) ?_
        (fun e2 he2 hne => hdisj e2 (List.mem_cons_of_mem _ he2) hne)
      unfold checkStep
      rw [if_pos (by rw [hreg]; exact hskip)]
      exact setDash_dash htag
    · exact ih (checkStep net st e0) hh (skip_mono net st e0 hh hskip) e
        he' hreg tag htag
        (fun e2 he2 hne => hdisj e2 (List.mem_cons_of_mem _ he2) hne)

/-- A result computed earlier in the invocation is kept to the end when
every later image writes under different cache keys. -/
lemma results_preserved (net : String → String → FetchResult) :
    ∀ (ses : List (String × RepoInfo)) (st : CheckState) (k v : String),
      st.results k = some v →
      (∀ e2 ∈ ses, ∀ s : String, k ≠ e2.1 ++ "|" ++ s) →
      (ses.foldl (checkStep net) st).results k = some v := by
  intro ses
  induction ses with
  | nil =>
    intro st k v h _
    exact h
  | cons e2 tail ih =>
    intro st k v h hdisj
    rw [List.foldl_cons]
    refine ih _ k v ?_ (fun e he => hdisj e (List.mem_cons_of_mem _ he))
    unfold checkStep
    split
    · show setDash st.results e2.1 e2.2.tags k = some v
      rw [setDash_untouched (hdisj e2 (List.mem_cons_self _ _))]
      exact h
    · cases hx : net e2.2.registry e2.2.path with
      | ok allTags =>
        show okUpdate e2.1 allTags st.results e2.2.tags k = some v
        rw [okUpdate_untouched (hdisj e2 (List.mem_cons_self _ _))]
        exact h
      | err429 =>
        show setDash st.results e2.1 e2.2.tags k = some v
        rw [setDash_untouched (hdisj e2 (List.mem_cons_self _ _))]
        exact h
      | errOther =>
        show setDash st.results e2.1 e2.2.tags k = some v
        rw [setDash_untouched (hdisj e2 (List.mem_cons_self _ _))]
        exact h

lemma ne_append_of_head (k pre s : String)
    (hne : k.toList.head? ≠ pre.toList.head?) (hp : pre.toList ≠ []) :
    k ≠ pre ++ s := by
  intro heq
  apply hne
  have happ : (pre ++ s).toList = pre.toList ++ s.toList :=
    String.data_append pre s
  rw [heq, happ]
  cases hc : pre.toList with
  | nil => exact absurd hc hp
  | cons c t => rfl

lemma dash_after (net : String → String → FetchResult) (h : String)
    (h429 : ∀ p, net h p = FetchResult.err429) :
    ∀ (repos : List (String × RepoInfo)) (st : CheckState),
      (∀ e1 ∈ repos, e1.2.registry = h → ∀ e2 ∈ repos,
        e2.2.registry ≠ h → ∀ t1 ∈ e1.2.tags, ∀ s : String,
          e1.1 ++ "|" ++ t1 ≠ e2.1 ++ "|" ++ s) →
      ∀ e ∈ repos, e.2.registry = h → ∀ tag ∈ e.2.tags,
        (repos.foldl (checkStep net) st).results (e.1 ++ "|" ++ tag)
          = some "-" := by
  intro repos
  induction repos with
  | nil =>
    intro st _ e he
    simp at he
  | cons e0 rest ih =>
    intro st hkeys e he hreg tag htag
    rw [List.foldl_cons]
    rcases List.mem_cons.mp he with rfl | he'
    · have hstep : (checkStep net st e).results (e.1 ++ "|" ++ tag)
          = some "-" := by
        unfold checkStep
        split
        · exact setDash_dash htag
        · rw [hreg, h429 e.2.path]
          exact setDash_dash htag
      refine dash_preserved net rest (checkStep net st e) _ hstep ?_
      intro e2 he2 hok s
      by_cases hereg : e2.2.registry = h
      · obtain ⟨tags, hok'⟩ := hok
        rw [hereg, h429 e2.2.path] at hok'
        exact absurd hok' (by simp)
      · exact hkeys e (List.mem_cons_self _ _) hreg e2
          (List.mem_cons_of_mem _ he2) hereg tag htag s
    · refine ih (checkStep net st e0) ?_ e he' hreg tag htag
      intro e1 h1 hr e2 h2 hne
      exact hkeys e1 (List.mem_cons_of_mem _ h1) hr e2
        (List.mem_cons_of_mem _ h2) hne

/-- C7 (amended): under any network oracle, (i) a 429 from a
not-yet-skipped host marks the host skip, maps every deployed tag of that
image to "-", and logs exactly this one request; (ii) once a host is
skipped, no further request to it is issued for the rest of the
invocation; (iii) every image of a skipped host processed afterwards has
all its deployed tags mapped to "-" (images of other hosts writing under
different cache keys); (iv) a result computed before the 429 is kept to
the end when later images write under different cache keys; (v) the S6
case — a host answering 429 to every query — ends with every deployed tag
of every image of that host mapped to "-" in the results and the merged
cache, and at most one request reaching the host. -/
theorem imageCheck_rate_limit (net : String → String → FetchResult) :
    (∀ (st : CheckState) (e : String × RepoInfo),
      e.2.registry ∉ st.skip →
      net e.2.registry e.2.path = FetchResult.err429 →
      checkStep net st e =
        { st with results := setDash st.results e.1 e.2.tags,
                  skip := e.2.registry :: st.skip,
                  calls := st.calls ++ [e.2.registry] }) ∧
    (∀ (ses : List (String × RepoInfo)) (st : CheckState) (hh : String),
      hh ∈ st.skip →
      (ses.foldl (checkStep net) st).calls.filter (fun r => r = hh)
        = st.calls.filter (fun r => r = hh)) ∧
    (∀ (ses : List (String × RepoInfo)) (st : CheckState) (hh : String),
      hh ∈ st.skip →
      ∀ e ∈ ses, e.2.registry = hh → ∀ tag ∈ e.2.tags,
      (∀ e2 ∈ ses, e2.2.registry ≠ hh → ∀ s : String,
        e.1 ++ "|" ++ tag ≠ e2.1 ++ "|" ++ s) →
      (ses.foldl (checkStep net) st).results (e.1 ++ "|" ++ tag)
        = some "-") ∧
    (∀ (ses : List (String × RepoInfo)) (st : CheckState) (k v : String),
      st.results k = some v →
      (∀ e2 ∈ ses, ∀ s : String, k ≠ e2.1 ++ "|" ++ s) →
      (ses.foldl (checkStep net) st).results k = some v) ∧
    (∀ (repos : List (String × RepoInfo)) (h : String),
      (∀ p, net h p = FetchResult.err429) →
      (∀ e1 ∈ repos, e1.2.registry = h → ∀ e2 ∈ repos,
        e2.2.registry ≠ h → ∀ t1 ∈ e1.2.tags, ∀ s : String,
          e1.1 ++ "|" ++ t1 ≠ e2.1 ++ "|" ++ s) →
      (∀ e ∈ repos, e.2.registry = h → ∀ tag ∈ e.2.tags,
        (imageCheckRun net repos).results (e.1 ++ "|" ++ tag)
          = some "-") ∧
      ((imageCheckRun net repos).calls.filter
        (fun r => r = h)).length ≤ 1 ∧
      (∀ cache : String → String, ∀ e ∈ repos, e.2.registry = h →
        ∀ tag ∈ e.2.tags,
          mergeCache cache (imageCheckRun net repos).results
            (e.1 ++ "|" ++ tag) = "-")) := by
  refine ⟨checkStep_429 net, skip_no_calls net, skip_dashes net,
    results_preserved net, ?_⟩
  intro repos h h429 hkeys
  have hdash := dash_after net h h429 repos ⟨fun _ => none, [], []⟩ hkeys
  refine ⟨hdash, ?_, ?_⟩
  · exact calls_count_inv net h h429 repos ⟨fun _ => none, [], []⟩
      (fun _ => rfl) (by simp)
  · intro cache e he hreg tag htag
    unfold mergeCache imageCheckRun
    rw [hdash e he hreg tag htag]

/-- Oracle for the counterexample: path "a" succeeds, everything else is
rate-limited. -/
def net429 : String → String → FetchResult :=
  fun _ p => if p = "a" then .ok [] else .err429

def repos429 : List (String × RepoInfo) :=
  [("r/a", ⟨"r", "a", ["1.0"]⟩), ("r/b", ⟨"r", "b", ["1.0"]⟩)]

/-- C7 counterexample: host "r" answers 429 during the invocation (it is
marked skip), yet the deployed tag of its image r/a — queried
successfully before the 429 — maps to "1.0", not to the sentinel "-",
refuting the claim that once the host answers 429 every deployed tag of
every image of that host is mapped to "-". -/
theorem imageCheck_rate_limit_counterexample :
    "r" ∈ (imageCheckRun net429 repos429).skip ∧
    mergeCache (fun _ => "") (imageCheckRun net429 repos429).results
      "r/a|1.0" = "1.0" ∧
    ("1.0" : String) ≠ "-" := by
  refine ⟨by decide, by decide, by decide⟩

/-- C7 witness: the amended theorem instantiated at concrete oracles —
the step equation at the first 429, a silent and dashing skip mark, a
preserved earlier result, and the S6 always-429 one-repo run. -/
theorem imageCheck_rate_limit_witness :
    (checkStep net429 ⟨fun _ => none, [], []⟩ ("r/b", ⟨"r", "b", ["1.0"]⟩)
      = { results := setDash (fun _ => none) "r/b" ["1.0"],
          skip := ["r"], calls := ["r"] }) ∧
    (([("r/b", (⟨"r", "b", ["1.0"]⟩ : RepoInfo))].foldl (checkStep net429)
        ⟨fun _ => none, ["r"], []⟩).calls.filter (fun r => r = "r")
      = ([] : List String).filter (fun r => r = "r")) ∧
    (([("r/b", (⟨"r", "b", ["1.0"]⟩ : RepoInfo))].foldl (checkStep net429)
        ⟨fun _ => none, ["r"], []⟩).results ("r/b" ++ "|" ++ "1.0")
      = some "-") ∧
    ((repos429.foldl (checkStep net429)
        ⟨fun k => if k = "x" then some "1.0" else none, [], []⟩).results
        "x" = some "1.0") ∧
    ((imageCheckRun (fun _ _ => FetchResult.err429)
        [("h/p", ⟨"h", "p", ["1.0"]⟩)]).results ("h/p" ++ "|" ++ "1.0")
      = some "-") := by
  refine ⟨(imageCheck_rate_limit net429).1 ⟨fun _ => none, [], []⟩
      ("r/b", ⟨"r", "b", ["1.0"]⟩) (by simp) rfl,
    (imageCheck_rate_limit net429).2.1 [("r/b", ⟨"r", "b", ["1.0"]⟩)]
      ⟨fun _ => none, ["r"], []⟩ "r" (by simp),
    (imageCheck_rate_limit net429).2.2.1 [("r/b", ⟨"r", "b", ["1.0"]⟩)]
      ⟨fun _ => none, ["r"], []⟩ "r" (by simp)
      ("r/b", ⟨"r", "b", ["1.0"]⟩) (by simp) rfl "1.0" (by simp) ?_,
    (imageCheck_rate_limit net429).2.2.2.1 repos429
      ⟨fun k => if k = "x" then some "1.0" else none, [], []⟩ "x" "1.0"
      (by decide) ?_,
    ((imageCheck_rate_limit (fun _ _ => FetchResult.err429)).2.2.2.2
      [("h/p", ⟨"h", "p", ["1.0"]⟩)] "h" (fun _ => rfl) ?_).1
      ("h/p", ⟨"h", "p", ["1.0"]⟩) (by simp) rfl "1.0" (by simp)⟩
  · intro e2 he2 hne
    rw [List.mem_singleton] at he2
    subst he2
    exact absurd rfl hne
  · intro e2 he2 s
    simp only [repos429, List.mem_cons, List.mem_singleton] at he2
    rcases he2 with rfl | rfl | h
    · exact ne_append_of_head _ _ s (by decide) (by decide)
    · exact ne_append_of_head _ _ s (by decide) (by decide)
    · exact absurd h (List.not_mem_nil _)
  · intro e1 h1 hr e2 h2 hne
    rw [List.mem_singleton] at h2
    subst h2
    exact absurd rfl hne

/-! ## Table rows and their latest/outdated fields (versions.go,
nodes.go, images.go).  None of the Go row structs uses `omitempty`, so
the marshal model always emits every field; the builders reproduce the
per-row computations.  `nspace` stands for the Go field `Namespace`
(`namespace` is reserved in Lean); a nil checker or an empty lookup is an
absent `checkerResult`. -/

inductive JsonVal where
  | str (s : String)
  | bool (b : Bool)
  | num (n : Int)
deriving DecidableEq, Repr

/-- `VersionRow` from versions.go. -/
structure VersionRow where
  cluster : String
  release : String
  nspace : String
  chart : String
  version : String
  latest : String
  outdated : Bool
  repoType : String
  repoURL : String
deriving DecidableEq, Repr

/-- `HelmReleaseInfo` fields read by the row loop. -/
structure HelmRelease where
  cluster : String
  name : String
  nspace : String
  chartName : String
  version : String
deriving DecidableEq, Repr

/-- `HelmRepositoryInfo` fields read by the row loop (the zero value
models a missing lookup, exactly as a Go map read does). -/
structure HelmRepository where
  rtype : String
  url : String
deriving DecidableEq, Repr

/-- The body of the release loop of `GenerateVersions`. -/
def mkVersionRow (rel : HelmRelease) (repo : HelmRepository)
    (checkerResult : Option String) : VersionRow :=
  let repoType := if repo.rtype = "oci" then "OCI"
                  else if repo.rtype ≠ "" then "HTTP" else "-"
  let repoURL := if repo.url = "" then "-" else repo.url
  let lo : String × Bool :=
    match checkerResult with
    | none => ("-", false)
    | some v =>
      if v ≠ "" then (v, decide (v ≠ rel.version ∧ rel.version ≠ ""))
      else ("-", false)
  let version := if rel.version = "" then "-" else rel.version
  { cluster := rel.cluster, release := rel.name, nspace := rel.nspace,
    chart := rel.chartName, version := version, latest := lo.1,
    outdated := lo.2, repoType := repoType, repoURL := repoURL }

/-- JSON marshalling of a `VersionRow`: every field carries a plain json
tag (no omitempty), so every key is always present. -/
def marshalVersionRow (r : VersionRow) : List (String × JsonVal) :=
  [("cluster", .str r.cluster), ("release", .str r.release),
   ("namespace", .str r.nspace), ("chart", .str r.chart),
   ("version", .str r.version), ("latest", .str r.latest),
   ("outdated", .bool r.outdated), ("repoType", .str r.repoType),
   ("repoUrl", .str r.repoURL)]

/-- `ImageRow` from images.go. -/
structure ImageRow where
  image : String
  tag : String
  rowType : String
  namespaces : String
  pods : Int
  registry : String
  latest : String
  outdated : Bool
deriving DecidableEq, Repr

/-- The latest/outdated computation of the image row loop. -/
def imageLatestOutdated (checkerResult : Option String) (tag : String) :
    String × Bool :=
  match checkerResult with
  | none => ("-", false)
  | some v =>
    if v ≠ "" then (v, decide (v ≠ "-" ∧ v ≠ tag))
    else ("-", false)

/-- The body of the aggregation loop of `GenerateImages`. -/
def mkImageRow (image tag : String) (isInit : Bool)
    (namespaces : String) (pods : Int) (registry : String)
    (checkerResult : Option String) : ImageRow :=
  let lo := imageLatestOutdated checkerResult tag
  { image := image, tag := tag,
    rowType := if isInit then "init" else "app",
    namespaces := namespaces, pods := pods, registry := registry,
    latest := lo.1, outdated := lo.2 }

def marshalImageRow (r : ImageRow) : List (String × JsonVal) :=
  [("image", .str r.image), ("tag", .str r.tag), ("type", .str r.rowType),
   ("namespaces", .str r.namespaces), ("pods", .num r.pods),
   ("registry", .str r.registry), ("latest", .str r.latest),
   ("outdated", .bool r.outdated)]

/-- `NodeRow` from nodes.go. -/
structure NodeRow where
  name : String
  cluster : String
  roles : String
  ip : String
  os : String
  osVersion : String
  latestOS : String
  osOutdated : Bool
  kubelet : String
  latestKubelet : String
  kubeletOutdated : Bool
  containerRuntime : String
  kernel : String
  cpu : String
  memory : String
  arch : String
deriving DecidableEq, Repr

/-- `strings.TrimPrefix(s, "v")`. -/
def trimV (s : String) : String :=
  match s.toList with
  | 'v' :: rest => String.mk rest
  | _ => s

/-- The latestOS/osOutdated computation of the node row loop (note: the
missing-data default is the empty string, not the "-" sentinel). -/
def nodeOSLatest (checkerResult : Option String) (osVer : String) :
    String × Bool :=
  match checkerResult with
  | none => ("", false)
  | some v =>
    if v ≠ "" then
      (v, decide (trimV v ≠ "" ∧ trimV osVer ≠ "" ∧ trimV v ≠ trimV osVer))
    else ("", false)

/-- The latestKubelet/kubeletOutdated computation of the node row loop. -/
def nodeKubeletLatest (checkerResult : Option String)
    (kubeletVersion : String) : String × Bool :=
  match checkerResult with
  | none => ("", false)
  | some v =>
    if v ≠ "" then (v, decide (v ≠ kubeletVersion))
    else ("", false)

/-- The body of the node loop of `GenerateNodes`; `distro` and `osVer`
are the outputs of `ParseOSImage` applied to the node's OSImage. -/
def mkNodeRow (name cluster roles ip osImage distro osVer kubeletVersion
    containerRuntime kernel cpu memory arch : String)
    (osResult kubeletResult : Option String) : NodeRow :=
  let oslo := nodeOSLatest osResult osVer
  let klo := nodeKubeletLatest kubeletResult kubeletVersion
  { name := name, cluster := cluster, roles := roles, ip := ip,
    os := if distro = "" then osImage else distro, osVersion := osVer,
    latestOS := oslo.1, osOutdated := oslo.2, kubelet := kubeletVersion,
    latestKubelet := klo.1, kubeletOutdated := klo.2,
    containerRuntime := containerRuntime, kernel := kernel, cpu := cpu,
    memory := memory, arch := arch }

def marshalNodeRow (r : NodeRow) : List (String × JsonVal) :=
  [("name", .str r.name), ("cluster", .str r.cluster),
   ("roles", .str r.roles), ("ip", .str r.ip), ("os", .str r.os),
   ("osVersion", .str r.osVersion), ("latestOS", .str r.latestOS),
   ("osOutdated", .bool r.osOutdated), ("kubelet", .str r.kubelet),
   ("latestKubelet", .str r.latestKubelet),
   ("kubeletOutdated", .bool r.kubeletOutdated),
   ("containerRuntime", .str r.containerRuntime),
   ("kernel", .str r.kernel), ("cpu", .str r.cpu),
   ("memory", .str r.memory), ("arch", .str r.arch)]

/-- C9 counterexample: a node row built without freshness data carries
latestOS = "" — the empty string, not the claimed sentinel "-" — and the
node checker path therefore violates the claim (the field itself is still
emitted). -/
theorem node_row_missing_freshness_counterexample :
    (mkNodeRow "n1" "Homelab" "worker" "10.0.0.1" "Talos (v1.9.0)"
      "talos" "1.9.0" "v1.32.0" "containerd" "6.6" "4" "8Gi" "amd64"
      none none).latestOS = "" ∧
    (mkNodeRow "n1" "Homelab" "worker" "10.0.0.1" "Talos (v1.9.0)"
      "talos" "1.9.0" "v1.32.0" "containerd" "6.6" "4" "8Gi" "amd64"
      none none).latestOS ≠ "-" ∧
    ("latestOS", JsonVal.str "") ∈ marshalNodeRow
      (mkNodeRow "n1" "Homelab" "worker" "10.0.0.1" "Talos (v1.9.0)"
        "talos" "1.9.0" "v1.32.0" "containerd" "6.6" "4" "8Gi" "amd64"
        none none) := by
  refine ⟨rfl, by decide, by decide⟩

/-- C9 (amended): every marshalled row always carries its latest and
outdated keys (no omitempty); with no freshness data the versions and
images rows default to latest = "-", outdated = false, while the nodes
rows default their latest fields to the empty string (not "-") with
outdated = false. -/
theorem table_rows_latest_outdated (rel : HelmRelease)
    (repo : HelmRepository) (image tag : String) (isInit : Bool)
    (namespaces : String) (pods : Int) (registry : String)
    (osVer kubeletVersion : String) (r1 : VersionRow) (r2 : ImageRow)
    (r3 : NodeRow) :
    ((marshalVersionRow r1).map Prod.fst =
      ["cluster", "release", "namespace", "chart", "version", "latest",
       "outdated", "repoType", "repoUrl"] ∧
     (marshalImageRow r2).map Prod.fst =
      ["image", "tag", "type", "namespaces", "pods", "registry", "latest",
       "outdated"] ∧
     (marshalNodeRow r3).map Prod.fst =
      ["name", "cluster", "roles", "ip", "os", "osVersion", "latestOS",
       "osOutdated", "kubelet", "latestKubelet", "kubeletOutdated",
       "containerRuntime", "kernel", "cpu", "memory", "arch"]) ∧
    ((mkVersionRow rel repo none).latest = "-" ∧
     (mkVersionRow rel repo none).outdated = false ∧
     (mkVersionRow rel repo (some "")).latest = "-" ∧
     (mkVersionRow rel repo (some "")).outdated = false) ∧
    ((mkImageRow image tag isInit namespaces pods registry none).latest
        = "-" ∧
     (mkImageRow image tag isInit namespaces pods registry none).outdated
        = false ∧
     (mkImageRow image tag isInit namespaces pods registry
        (some "")).latest = "-" ∧
     (mkImageRow image tag isInit namespaces pods registry
        (some "")).outdated = false) ∧
    (nodeOSLatest none osVer = ("", false) ∧
     nodeOSLatest (some "") osVer = ("", false) ∧
     nodeKubeletLatest none kubeletVersion = ("", false) ∧
     nodeKubeletLatest (some "") kubeletVersion = ("", false)) := by
  refine ⟨⟨rfl, rfl, rfl⟩, ⟨rfl, rfl, ?_, ?_⟩, ⟨rfl, rfl, ?_, ?_⟩,
    rfl, ?_, rfl, ?_⟩
  · unfold mkVersionRow
    simp
  · unfold mkVersionRow
    simp
  · unfold mkImageRow imageLatestOutdated
    simp
  · unfold mkImageRow imageLatestOutdated
    simp
  · unfold nodeOSLatest
    simp
  · unfold nodeKubeletLatest
    simp

end ClusterVision
